import Mathlib

namespace TCMarket

/-! Character-list string primitives.

The Python code works on `str`; we model strings as their character lists
(`String.data`) so that every operation is structurally recursive and reduces in
the kernel.  Each primitive mirrors the Python string method named in its
doc comment. -/

/-- Python str whitespace test (the characters str.strip removes in this repository). -/
def wsChar (c : Char) : Bool :=
  c = ' ' || c = '\t' || c = '\n' || c = '\r'

/-- Python str.strip(): drop leading and trailing whitespace. -/
def stripChars (l : List Char) : List Char :=
  ((l.dropWhile wsChar).reverse.dropWhile wsChar).reverse

/-- Lower-case one ASCII character (Python str.lower on the alphabets used here). -/
def lowerChar (c : Char) : Char :=
  if 'A' ≤ c && c ≤ 'Z' then Char.ofNat (c.toNat + 32) else c

/-- Python str.lower(). -/
def lowerChars (l : List Char) : List Char := l.map lowerChar

/-- Split at the first occurrence of a separator sequence; `none` when absent
(Python str.partition / str.find). -/
def splitFirst (sep : List Char) : List Char → Option (List Char × List Char)
  | [] => none
  | c :: rest =>
      if sep.isPrefixOf (c :: rest) then some ([], (c :: rest).drop sep.length)
      else
        match splitFirst sep rest with
        | none => none
        | some (pre, post) => some (c :: pre, post)

/-- Python str.split(sep) for a one-character separator. -/
def splitChar (sep : Char) : List Char → List (List Char)
  | [] => [[]]
  | c :: rest =>
      if c = sep then [] :: splitChar sep rest
      else
        match splitChar sep rest with
        | [] => [[c]]
        | g :: gs => (c :: g) :: gs

/-- Lexicographic strict order on character lists (Python string `<`). -/
def charsLt : List Char → List Char → Bool
  | [], [] => false
  | [], _ :: _ => true
  | _ :: _, [] => false
  | a :: as, b :: bs => if a < b then true else if b < a then false else charsLt as bs

/-- Insert an element into a list in front of the first entry it compares
no-greater than (helper for the stable sort below). -/
def insertLe (le : α → α → Bool) (a : α) : List α → List α
  | [] => [a]
  | b :: l => if le a b then a :: b :: l else b :: insertLe le a l

/-- Stable insertion sort: equal elements keep their input order, exactly like
Python's stable `sort`/`sorted`. -/
def isortBy (le : α → α → Bool) : List α → List α
  | [] => []
  | a :: l => insertLe le a (isortBy le l)

end TCMarket

namespace TCMarket

/-! Embedding of tc_market/url_utils.py -/

/-- Tracking query-parameter key starts stripped by canonicalization
(TRACKING_PARAM_PREFIXES in url_utils.py). -/
def trackingParamStarts : List (List Char) := [['u', 't', 'm', '_']]

/-- Fixed denylist of tracking query-parameter keys (TRACKING_PARAMS in url_utils.py). -/
def TRACKING_PARAMS : List (List Char) :=
  ["fbclid".data, "gclid".data, "igshid".data, "mc_cid".data, "mc_eid".data, "ref_src".data]

/-- Result of URL parsing, mirroring the components of Python urlparse that the
repository reads (the unused params component is not modelled). -/
structure ParsedUrl where
  scheme : List Char
  netloc : List Char
  path : List Char
  query : List Char
  fragment : List Char
deriving DecidableEq, Repr

/-- Model of Python urlparse restricted to the URL shapes this repository feeds it:
an absolute URL whose scheme is followed by `://`, or a scheme-less string (for
which Python leaves scheme and netloc empty). -/
def urlparse (url : List Char) : ParsedUrl :=
  let (beforeFrag, fragment) :=
    match splitFirst ['#'] url with
    | none => (url, [])
    | some (a, b) => (a, b)
  match splitFirst [':', '/', '/'] beforeFrag with
  | some (schemePart, rest) =>
      let netloc := rest.takeWhile (fun c => c ≠ '/' && c ≠ '?')
      let tail := rest.drop netloc.length
      let (path, query) :=
        match splitFirst ['?'] tail with
        | none => (tail, [])
        | some (p, q) => (p, q)
      { scheme := schemePart, netloc := netloc, path := path, query := query, fragment := fragment }
  | none =>
      let (path, query) :=
        match splitFirst ['?'] beforeFrag with
        | none => (beforeFrag, [])
        | some (p, q) => (p, q)
      { scheme := [], netloc := [], path := path, query := query, fragment := fragment }

/-- Model of parse_qsl with keep_blank_values=False: split the query on ampersands
and keep only fields with an equals sign and a non-empty value (percent-decoding is
not modelled; it is the identity on every URL this repository handles). -/
def parse_qsl (q : List Char) : List (List Char × List Char) :=
  (splitChar '&' q).filterMap fun part =>
    match splitFirst ['='] part with
    | none => none
    | some (k, v) => if v = [] then none else some (k, v)

/-- Lexicographic order on (key, value) pairs, as Python compares tuples of strings
when sorting query items. -/
def pairLe (a b : List Char × List Char) : Bool :=
  charsLt a.1 b.1 || (a.1 == b.1 && !charsLt b.2 a.2)

/-- Model of urlencode(sorted(query_items)): sort pairs lexicographically and join
key=value fields with ampersands (quote_plus is not modelled; it is the identity on
every URL this repository handles). -/
def urlencodeSorted (items : List (List Char × List Char)) : List Char :=
  List.intercalate ['&'] ((isortBy pairLe items).map (fun kv => kv.1 ++ '=' :: kv.2))

/-- Model of urlunparse for the call in canonicalize_url (params and fragment are
passed empty there). -/
def urlunparse (scheme netloc path query : List Char) : List Char :=
  let base :=
    if netloc ≠ [] || ['/', '/'].isPrefixOf path then
      ['/', '/'] ++ netloc ++ (if path ≠ [] && !(['/'].isPrefixOf path) then '/' :: path else path)
    else path
  let withScheme := if scheme ≠ [] then scheme ++ ':' :: base else base
  if query ≠ [] then withScheme ++ '?' :: query else withScheme

/-- canonicalize_url on character lists: lower-case scheme (defaulting to https) and
host, strip a leading www., drop tracking query parameters, sort the remaining query
parameters, and trim a trailing slash from the path (root stays "/"). -/
def canonChars (url : List Char) : List Char :=
  let parsed := urlparse (stripChars url)
  let scheme0 := lowerChars parsed.scheme
  let scheme := if scheme0 = [] then "https".data else scheme0
  let netloc0 := lowerChars parsed.netloc
  let netloc := if "www.".data.isPrefixOf netloc0 then netloc0.drop 4 else netloc0
  let query_items := (parse_qsl parsed.query).filter fun kv =>
    let kl := lowerChars kv.1
    !(TRACKING_PARAMS.contains kl) && !(trackingParamStarts.any fun p => p.isPrefixOf kl)
  let query := urlencodeSorted query_items
  let path := if parsed.path = [] then ['/'] else parsed.path
  let stripped := (path.reverse.dropWhile (fun c => c = '/')).reverse
  urlunparse scheme netloc (if stripped = [] then ['/'] else stripped) query

/-- canonicalize_url from url_utils.py. -/
def canonicalize_url (url : String) : String := ⟨canonChars url.data⟩

/-- extract_domain from url_utils.py. -/
def extract_domain (url : String) : String :=
  let host := lowerChars (urlparse url.data).netloc
  ⟨if "www.".data.isPrefixOf host then host.drop 4 else host⟩

end TCMarket

namespace TCMarket

/-! Embedding of tc_market/constants.py -/

/-- Chips granted to a new user (STARTING_CHIPS). -/
def STARTING_CHIPS : Int := 100

/-- Chips granted per missed day by the faucet (DAILY_CHIPS). -/
def DAILY_CHIPS : Int := 10

/-- Maximum picks per user per cycle (MAX_PICKS_PER_CYCLE). -/
def MAX_PICKS_PER_CYCLE : Nat := 10

/-- Curation reward table keyed by rank position (CURATION_RANK_REWARDS). -/
def CURATION_RANK_REWARDS : List (Nat × Nat) := [(1, 40), (2, 20), (3, 10)]

/-- Reward chips for a correct pick at rank N (RANK_REWARDS). -/
def RANK_REWARDS : List (Nat × Int) :=
  [(1, 20), (2, 18), (3, 16), (4, 14), (5, 12), (6, 10), (7, 8), (8, 6), (9, 4), (10, 2)]

/-- Weights used for market-implied probabilities (RANK_WEIGHTS). -/
def RANK_WEIGHTS : List (Nat × Nat) :=
  [(1, 10), (2, 9), (3, 8), (4, 7), (5, 6), (6, 5), (7, 4), (8, 3), (9, 2), (10, 1)]

/-- Python dict.get(key, default) on an association list. -/
def dictGet (l : List (Nat × β)) (k : Nat) (d : β) : β :=
  match l.find? (fun kv => kv.1 == k) with
  | some kv => kv.2
  | none => d

/-- Membership of a key in a dict modelled as an association list. -/
def dictHas (l : List (Nat × β)) (k : Nat) : Bool :=
  l.any (fun kv => kv.1 == k)

/-- Python round(p / q) for naturals with q > 0: round half to even, as Python 3's
round applies to the exact quotient (the float quotients this repository rounds are
close enough to exact that the two agree). -/
def pyRound (p q : Nat) : Nat :=
  let d := p / q
  let r := p % q
  if 2 * r < q then d
  else if 2 * r > q then d + 1
  else if d % 2 = 0 then d else d + 1

/-- Exact rational addition through mkRat.  Mathlib's Rat.add does not reduce
inside the kernel; this normalized-fraction form does, and qadd_eq identifies it
with + for reasoning.  Probabilities are exact rationals standing in for the
source's floats. -/
def qadd (a b : ℚ) : ℚ := mkRat (a.num * b.den + b.num * a.den) (a.den * b.den)

/-- Exact rational division through mkRat (zero for a zero divisor, like `/` on
ℚ); qdiv_eq identifies it with /. -/
def qdiv (a b : ℚ) : ℚ :=
  if b.num < 0 then mkRat (-(a.num * (b.den : Int))) (a.den * b.num.natAbs)
  else mkRat (a.num * (b.den : Int)) (a.den * b.num.natAbs)

/-- Sum of a list of rationals through qadd. -/
def qsum (l : List ℚ) : ℚ := l.foldr qadd 0

/-- qadd is rational addition. -/
theorem qadd_eq (a b : ℚ) : qadd a b = a + b := by
  unfold qadd
  rw [Rat.mkRat_eq_div]
  push_cast
  have ha : ((a.den : ℚ)) ≠ 0 := by exact_mod_cast a.den_nz
  have hb : ((b.den : ℚ)) ≠ 0 := by exact_mod_cast b.den_nz
  conv_rhs => rw [← Rat.num_div_den a, ← Rat.num_div_den b]
  rw [div_add_div _ _ ha hb]
  ring_nf

/-- qdiv is rational division. -/
theorem qdiv_eq (a b : ℚ) : qdiv a b = a / b := by
  unfold qdiv
  rcases lt_trichotomy b.num 0 with h | h | h
  · rw [if_pos h, Rat.mkRat_eq_div]
    push_cast [Int.cast_natAbs]
    rw [abs_of_neg (by exact_mod_cast h : ((b.num : ℚ)) < 0)]
    conv_rhs => rw [← Rat.num_div_den a, ← Rat.num_div_den b]
    have ha : ((a.den : ℚ)) ≠ 0 := by exact_mod_cast a.den_nz
    have hbn : ((b.num : ℚ)) ≠ 0 := by exact_mod_cast (by omega : b.num ≠ 0)
    have hbd : ((b.den : ℚ)) ≠ 0 := by exact_mod_cast b.den_nz
    field_simp
  · rw [if_neg (by omega)]
    have hb : b = 0 := by
      rw [← Rat.num_div_den b, h]
      simp
    subst hb
    simp
  · rw [if_neg (by omega), Rat.mkRat_eq_div]
    push_cast [Int.cast_natAbs]
    rw [abs_of_pos (by exact_mod_cast h : (0:ℚ) < (b.num : ℚ))]
    conv_rhs => rw [← Rat.num_div_den a, ← Rat.num_div_den b]
    have ha : ((a.den : ℚ)) ≠ 0 := by exact_mod_cast a.den_nz
    have hbn : ((b.num : ℚ)) ≠ 0 := by exact_mod_cast (by omega : b.num ≠ 0)
    have hbd : ((b.den : ℚ)) ≠ 0 := by exact_mod_cast b.den_nz
    field_simp

/-- qsum is the rational list sum. -/
theorem qsum_eq (l : List ℚ) : qsum l = l.sum := by
  induction l with
  | nil => rfl
  | cons a rest ih => rw [qsum, List.foldr_cons, qadd_eq, List.sum_cons, ← qsum, ih]

/-! Data model, following the schema in storage.py and the dataclasses in models.py.
Identifiers generated by uuid4 in the source are modelled as naturals drawn from a
freshness counter (uniqueness is the only property the code relies on).  Calendar
dates are modelled as integer day numbers and timestamps as integer seconds; the
wall clock is passed explicitly where the source calls datetime.now.  Timestamp and
metadata columns that no code path reads back are omitted. -/

/-- A row of the users table (chips view). -/
structure UserRec where
  id : Nat
  display_name : String
  email : String
  account_type : String
  current_chips : Int
  last_daily_credit_date : Int
deriving DecidableEq, Repr

/-- A row of the append-only chip_ledger table. -/
structure LedgerEntry where
  user_id : Nat
  cycle_id : Option Nat
  event_type : String
  chips_delta : Int
deriving DecidableEq, Repr

/-- Cycle status column: CHECK(status IN ('OPEN', 'SETTLED')). -/
inductive CycleStatus where
  | OPEN
  | SETTLED
deriving DecidableEq, Repr

/-- A row of the cycles table. -/
structure Cycle where
  id : Nat
  cycle_date : Int
  status : CycleStatus
  closed_at : Option Int
deriving DecidableEq, Repr

/-- A row of the candidate_links table. -/
structure CandidateLink where
  id : Nat
  cycle_id : Nat
  submitted_by_user_id : Nat
  original_url : String
  canonical_url : String
  domain : String
  title : String
deriving DecidableEq, Repr

/-- A row of the picks table. -/
structure Pick where
  cycle_id : Nat
  user_id : Nat
  candidate_id : Nat
  rank : Nat
deriving DecidableEq, Repr

/-- A row of the cycle_results table. -/
structure CycleResultRow where
  cycle_id : Nat
  candidate_id : Nat
  is_winner : Bool
deriving DecidableEq, Repr

/-- A reward row computed by the curation allocator (cycle_id is attached on
insertion). -/
structure CurationRow where
  user_id : Nat
  rank : Nat
  unique_clicks : Nat
  reward_chips : Nat
deriving DecidableEq, Repr

/-- A row of the model_predictions table; REAL probabilities are modelled as
rationals. -/
structure ModelPredictionRow where
  cycle_id : Nat
  model_user_id : Nat
  candidate_id : Nat
  probability : ℚ
  explanation : String
deriving DecidableEq, Repr

/-- A row of the click_events table (the attribution columns consumed only by the
external dedup concern are omitted; the allocator reads only counts). -/
structure ClickEvent where
  cycle_id : Nat
  candidate_id : Nat
deriving DecidableEq, Repr

/-- A row of the job_runs table, with UNIQUE(job_name, run_key). -/
structure JobRun where
  job_name : String
  run_key : String
deriving DecidableEq, Repr

/-- The persistent state owned by storage.py (tables unrelated to the market core,
such as sessions and OAuth state, are omitted). -/
structure Storage where
  users : List UserRec
  chip_ledger : List LedgerEntry
  cycles : List Cycle
  candidate_links : List CandidateLink
  picks : List Pick
  cycle_results : List CycleResultRow
  curation_rewards : List (Nat × CurationRow)
  model_predictions : List ModelPredictionRow
  click_events : List ClickEvent
  job_runs : List JobRun
  fresh : Nat
deriving DecidableEq, Repr

/-- The freshly created schema: every table empty. -/
def initStorage : Storage :=
  { users := [], chip_ledger := [], cycles := [], candidate_links := [], picks := [],
    cycle_results := [], curation_rewards := [], model_predictions := [],
    click_events := [], job_runs := [], fresh := 0 }

end TCMarket

namespace TCMarket

/-! Embedding of the Storage methods (storage.py) the claims depend on.  Each
method maps the pre-state to its result and post-state; a raised exception whose
transaction rolls back is modelled by returning the pre-state (or `none` /
`Except.error` when the caller observes the exception). -/

namespace Storage

/-- get_user_by_email: SELECT by the unique email column. -/
def get_user_by_email (s : Storage) (email : String) : Option UserRec :=
  s.users.find? (fun u => u.email == email)

/-- The unchecked body of create_user: insert the user row with STARTING_CHIPS and
the paired signup_bonus ledger entry in one transaction. -/
def insert_user (s : Storage) (display_name email account_type : String)
    (created_date : Int) : UserRec × Storage :=
  let u : UserRec :=
    { id := s.fresh, display_name := display_name, email := email,
      account_type := account_type, current_chips := STARTING_CHIPS,
      last_daily_credit_date := created_date }
  let entry : LedgerEntry :=
    { user_id := u.id, cycle_id := none, event_type := "signup_bonus",
      chips_delta := STARTING_CHIPS }
  (u, { s with
        users := s.users ++ [u]
        chip_ledger := s.chip_ledger ++ [entry]
        fresh := s.fresh + 1 })

/-- create_user: the INSERT fails on the UNIQUE email constraint, rolling the
transaction back (modelled as `none`). -/
def create_user (s : Storage) (display_name email account_type : String)
    (created_date : Int) : Option (UserRec × Storage) :=
  if s.users.any (fun u => u.email == email) then none
  else some (insert_user s display_name email account_type created_date)

/-- get_or_create_ai_user: look the synthetic account up by its reserved email,
creating it with account type AI on first use. -/
def get_or_create_ai_user (s : Storage) (model_id : String) : UserRec × Storage :=
  let email := "model:" ++ model_id ++ "@local"
  match get_user_by_email s email with
  | some u => (u, s)
  | none => insert_user s model_id email "AI" 0

/-- credit_user_chips: update the balance (skipping the UPDATE when the delta is
zero) and append the paired ledger row in one transaction; the ledger row's
user foreign key makes a credit to an unknown user roll back, leaving the state
unchanged. -/
def credit_user_chips (s : Storage) (user_id : Nat) (chips_delta : Int)
    (event_type : String) (cycle_id : Option Nat) : Storage :=
  if s.users.any (fun u => u.id == user_id) then
    let users :=
      if chips_delta ≠ 0 then
        s.users.map fun u =>
          if u.id == user_id then { u with current_chips := u.current_chips + chips_delta } else u
      else s.users
    let entry : LedgerEntry :=
      { user_id := user_id, cycle_id := cycle_id, event_type := event_type,
        chips_delta := chips_delta }
    { s with users := users, chip_ledger := s.chip_ledger ++ [entry] }
  else s

/-- One user's step of apply_daily_faucet: credit the missed days and stamp the
credit date, with the paired daily_faucet ledger row. -/
def faucetStep (as_of : Int) (acc : List (Nat × Int) × Storage) (row : UserRec) :
    List (Nat × Int) × Storage :=
  let missed := as_of - row.last_daily_credit_date
  if missed ≤ 0 then acc
  else
    let chips := missed * DAILY_CHIPS
    let st := acc.2
    let entry : LedgerEntry :=
      { user_id := row.id, cycle_id := none, event_type := "daily_faucet",
        chips_delta := chips }
    ( acc.1 ++ [(row.id, chips)],
      { st with
        users := st.users.map fun u =>
          if u.id == row.id then
            { u with
              current_chips := u.current_chips + chips
              last_daily_credit_date := as_of }
          else u
        chip_ledger := st.chip_ledger ++ [entry] } )

/-- apply_daily_faucet: walk the user snapshot, crediting each user whose last
credit date lies before as_of; returns the credited map. -/
def apply_daily_faucet (s : Storage) (as_of : Int) : List (Nat × Int) × Storage :=
  s.users.foldl (faucetStep as_of) ([], s)

/-- create_cycle: insert an OPEN cycle. -/
def create_cycle (s : Storage) (cycle_date : Int) : Cycle × Storage :=
  let c : Cycle := { id := s.fresh, cycle_date := cycle_date, status := .OPEN, closed_at := none }
  (c, { s with cycles := s.cycles ++ [c], fresh := s.fresh + 1 })

/-- get_cycle; the KeyError raised on an unknown id is modelled as `none`. -/
def get_cycle (s : Storage) (cycle_id : Nat) : Option Cycle :=
  s.cycles.find? (fun c => c.id == cycle_id)

/-- list_candidates for a cycle; ORDER BY created_at ASC is insertion order, the
order the model keeps the rows in. -/
def list_candidates (s : Storage) (cycle_id : Nat) : List CandidateLink :=
  s.candidate_links.filter (fun c => c.cycle_id == cycle_id)

/-- create_candidate: insert the canonicalized link; on the UNIQUE(cycle_id,
canonical_url) violation the except branch returns the existing row instead. -/
def create_candidate (s : Storage) (cycle_id submitted_by_user_id : Nat)
    (url title : String) : CandidateLink × Storage :=
  let canonical := canonicalize_url url
  let domain := extract_domain canonical
  match s.candidate_links.find?
      (fun c => c.cycle_id == cycle_id && c.canonical_url == canonical) with
  | some existing => (existing, s)
  | none =>
      let c : CandidateLink :=
        { id := s.fresh, cycle_id := cycle_id, submitted_by_user_id := submitted_by_user_id,
          original_url := url, canonical_url := canonical, domain := domain, title := title }
      (c, { s with candidate_links := s.candidate_links ++ [c], fresh := s.fresh + 1 })

/-- list_user_picks, ORDER BY rank ASC. -/
def list_user_picks (s : Storage) (cycle_id user_id : Nat) : List Pick :=
  isortBy (fun a b => a.rank ≤ b.rank)
    (s.picks.filter (fun p => p.cycle_id == cycle_id && p.user_id == user_id))

/-- list_picks for a cycle; ORDER BY picked_at, rank is the insertion order the
model keeps the rows in. -/
def list_picks (s : Storage) (cycle_id : Nat) : List Pick :=
  s.picks.filter (fun p => p.cycle_id == cycle_id)

/-- set_ranked_picks: validate count, uniqueness and cycle membership (raising
ValueError otherwise, with nothing written), then atomically replace the user's
pick set with ranks 1..n. -/
def set_ranked_picks (s : Storage) (cycle_id user_id : Nat) (candidate_ids : List Nat) :
    Except String (List Pick × Storage) :=
  if candidate_ids.length > MAX_PICKS_PER_CYCLE then
    .error "too_many_picks"
  else if candidate_ids.eraseDups.length ≠ candidate_ids.length then
    .error "picks_not_unique"
  else if ((list_candidates s cycle_id).filter
      (fun c => candidate_ids.contains c.id)).length ≠ candidate_ids.length then
    .error "picks_outside_cycle"
  else
    let kept := s.picks.filter (fun p => !(p.cycle_id == cycle_id && p.user_id == user_id))
    let newPicks := (candidate_ids.zip (List.range' 1 candidate_ids.length)).map fun ci =>
      ({ cycle_id := cycle_id, user_id := user_id, candidate_id := ci.1, rank := ci.2 } : Pick)
    let s1 := { s with picks := kept ++ newPicks }
    .ok (list_user_picks s1 cycle_id user_id, s1)

/-- save_cycle_results: in one transaction, delete any result rows for the cycle,
insert one row per candidate flagged with is_winner, and flip the cycle to SETTLED
stamping closed_at. -/
def save_cycle_results (s : Storage) (cycle_id : Nat) (winner_candidate_ids : List Nat)
    (now : Int) : Storage :=
  let candidate_rows := s.candidate_links.filter (fun c => c.cycle_id == cycle_id)
  { s with
    cycle_results :=
      (s.cycle_results.filter (fun r => !(r.cycle_id == cycle_id))) ++
        candidate_rows.map (fun c =>
          { cycle_id := cycle_id, candidate_id := c.id,
            is_winner := winner_candidate_ids.contains c.id })
    cycles := s.cycles.map fun c =>
      if c.id == cycle_id then { c with status := .SETTLED, closed_at := some now } else c }

/-- upsert_model_prediction: INSERT ... ON CONFLICT of the (cycle, model, candidate)
key DO UPDATE. -/
def upsert_model_prediction (s : Storage) (cycle_id model_user_id candidate_id : Nat)
    (probability : ℚ) (explanation : String) : Storage :=
  let row : ModelPredictionRow :=
    { cycle_id := cycle_id, model_user_id := model_user_id, candidate_id := candidate_id,
      probability := probability, explanation := explanation }
  if s.model_predictions.any (fun r =>
      r.cycle_id == cycle_id && r.model_user_id == model_user_id &&
      r.candidate_id == candidate_id) then
    { s with model_predictions := s.model_predictions.map fun r =>
        if r.cycle_id == cycle_id && r.model_user_id == model_user_id &&
            r.candidate_id == candidate_id then row else r }
  else
    { s with model_predictions := s.model_predictions ++ [row] }

/-- has_curation_rewards: existence check for reward rows of a cycle. -/
def has_curation_rewards (s : Storage) (cycle_id : Nat) : Bool :=
  s.curation_rewards.any (fun r => r.1 == cycle_id)

/-- claim_job_run: atomic insert into job_runs; the UNIQUE(job_name, run_key)
violation is caught and reported as False with the transaction rolled back. -/
def claim_job_run (s : Storage) (job_name run_key : String) : Bool × Storage :=
  if s.job_runs.any (fun j => j.job_name == job_name && j.run_key == run_key) then
    (false, s)
  else
    (true, { s with job_runs := s.job_runs ++ [{ job_name := job_name, run_key := run_key }] })

end Storage

end TCMarket

namespace TCMarket

/-! Curation reward allocation (storage.py, compute_curation_reward_rows and
apply_curation_rewards). -/

/-- Python dict.setdefault on an association list. -/
def dictSetDefault (l : List (Nat × β)) (k : Nat) (v : β) : List (Nat × β) :=
  if dictHas l k then l else l ++ [(k, v)]

/-- defaultdict `+=`: add to the entry, inserting a fresh zero-started entry for a
missing key. -/
def dictBump [Add β] (ws : List (Nat × β)) (k : Nat) (w : β) : List (Nat × β) :=
  if dictHas ws k then ws.map (fun kv => if kv.1 == k then (kv.1, kv.2 + w) else kv)
  else ws ++ [(k, w)]

/-- max(top_rank_positions): the largest rank position the curation table covers. -/
def curationMaxRank : Nat := (CURATION_RANK_REWARDS.map Prod.fst).foldr max 0

/-- Split a (clicks-sorted) list of (user_id, unique_clicks) rows into the maximal
runs of equal click counts; the while loop in compute_curation_reward_rows consumes
exactly one such run per iteration. -/
def groupRuns : List (Nat × Nat) → List (List (Nat × Nat))
  | [] => []
  | x :: xs =>
    match groupRuns xs with
    | [] => [[x]]
    | [] :: gs => [x] :: [] :: gs
    | (y :: g) :: gs => if x.2 == y.2 then (x :: y :: g) :: gs else [x] :: (y :: g) :: gs

/-- The body of the while loop in compute_curation_reward_rows, one tie run per
step: pool the table rewards of the run's still-covered positions, split them
evenly with Python rounding, and record every member at the run's first position. -/
def walkRuns : List (List (Nat × Nat)) → Nat → List CurationRow
  | [], _ => []
  | tie_group :: gs, next_rank =>
    if next_rank > curationMaxRank then []
    else
      match tie_group with
      | [] => walkRuns gs next_rank
      | r :: _ =>
        let click_count := r.2
        let start_rank := next_rank
        let end_rank := min (start_rank + tie_group.length - 1) curationMaxRank
        let eligible_positions := (List.range' start_rank (end_rank + 1 - start_rank)).filter
          (fun k => dictHas CURATION_RANK_REWARDS k)
        if eligible_positions.isEmpty then []
        else
          let total_pool := (eligible_positions.map (fun k => dictGet CURATION_RANK_REWARDS k 0)).sum
          let split_reward := pyRound total_pool tie_group.length
          tie_group.map (fun row =>
            ({ user_id := row.1, rank := start_rank, unique_clicks := click_count,
               reward_chips := split_reward } : CurationRow)) ++
            walkRuns gs (next_rank + tie_group.length)

namespace Storage

/-- The aggregation query of compute_curation_reward_rows: per submitter of the
cycle's candidates, the count of click events on that submitter's candidates,
dropping zero counts, ordered by clicks descending then user id ascending. -/
def submitterClickRows (s : Storage) (cycle_id : Nat) : List (Nat × Nat) :=
  let cycle_cands := s.candidate_links.filter (fun c => c.cycle_id == cycle_id)
  let submitters := (cycle_cands.map (fun c => c.submitted_by_user_id)).eraseDups
  let counts := submitters.map fun u =>
    (u, (s.click_events.filter (fun e => cycle_cands.any
          (fun c => c.id == e.candidate_id && c.submitted_by_user_id == u))).length)
  isortBy (fun a b => decide (b.2 < a.2) || (a.2 == b.2 && decide (a.1 ≤ b.1)))
    (counts.filter (fun r => decide (0 < r.2)))

/-- compute_curation_reward_rows: rank the click-sorted submitters and split the
reward table over tie runs. -/
def compute_curation_reward_rows (s : Storage) (cycle_id : Nat) : List CurationRow :=
  walkRuns (groupRuns (submitterClickRows s cycle_id)) 1

/-- apply_curation_rewards (Storage level): a no-op returning no rows when rewards
for the cycle already exist, otherwise insert each computed row and credit the
submitter through the ledger-paired credit operation. -/
def apply_curation_rewards (s : Storage) (cycle_id : Nat) : List CurationRow × Storage :=
  if has_curation_rewards s cycle_id then ([], s)
  else
    let reward_rows := compute_curation_reward_rows s cycle_id
    if reward_rows.isEmpty then ([], s)
    else
      (reward_rows, reward_rows.foldl (fun st row =>
        credit_user_chips
          { st with curation_rewards := st.curation_rewards ++ [(cycle_id, row)] }
          row.user_id (row.reward_chips : Int) "curation_reward" (some cycle_id)) s)

end Storage

end TCMarket

namespace TCMarket

/-! Embedding of MarketService (market.py). -/

/-- One output row of compute_market_probabilities; the float probability is
modelled as a rational. -/
structure MarketRow where
  candidate_id : Nat
  url : String
  domain : String
  rank_weight_score : Nat
  market_probability : ℚ
deriving DecidableEq, Repr

/-- RANK_WEIGHTS.get(rank, 1). -/
def rankWeight (r : Nat) : Nat := dictGet RANK_WEIGHTS r 1

/-- The rank-weight accumulation loop of compute_market_probabilities. -/
def pickWeights (picks : List Pick) : List (Nat × Nat) :=
  picks.foldl (fun ws p => dictBump ws p.candidate_id (rankWeight p.rank)) []

/-- The per-candidate weight dict of a cycle. -/
def marketWeights (s : Storage) (cycle_id : Nat) : List (Nat × Nat) :=
  pickWeights (Storage.list_picks s cycle_id)

/-- total_weight: the summed weight over all picks of the cycle. -/
def marketTotalWeight (s : Storage) (cycle_id : Nat) : Nat :=
  ((marketWeights s cycle_id).map Prod.snd).sum

namespace MarketService

/-- compute_market_probabilities: accumulate rank weights per picked candidate,
normalize by the total weight (all probabilities zero when the total is zero) and
return every candidate sorted by probability descending (stable). -/
def compute_market_probabilities (s : Storage) (cycle_id : Nat) : List MarketRow :=
  let candidates := Storage.list_candidates s cycle_id
  let weights := marketWeights s cycle_id
  let total_weight := marketTotalWeight s cycle_id
  let output := candidates.map fun c =>
    let score := dictGet weights c.id 0
    ({ candidate_id := c.id, url := c.original_url, domain := c.domain,
       rank_weight_score := score,
       market_probability :=
         if 0 < total_weight then mkRat score total_weight else 0 } : MarketRow)
  isortBy (fun a b => decide (b.market_probability ≤ a.market_probability)) output

end MarketService

/-- Winner resolution in settle_cycle: canonicalize the winner URLs, dedupe them
(the Python set is modelled in first-occurrence order; the claims are
order-insensitive), and keep only URLs matching a cycle candidate's canonical URL
(the candidate_by_canonical dict keeps the last row per canonical URL). -/
def winnerIdsOf (s : Storage) (cycle_id : Nat) (winner_urls : List String) : List Nat :=
  let candidates := Storage.list_candidates s cycle_id
  let winner_canonical := (winner_urls.map canonicalize_url).eraseDups
  winner_canonical.filterMap fun canonical =>
    match (candidates.filter (fun c => c.canonical_url == canonical)).getLast? with
    | some c => some c.id
    | none => none

/-- Accumulator of the pick scan in settle_cycle: per-user reward and hit
defaultdicts plus the participant list in first-pick order. -/
structure SettleAcc where
  user_rewards : List (Nat × Int)
  user_hits : List (Nat × Nat)
  participant_ids : List Nat
deriving DecidableEq, Repr

/-- One pick's step of the settle_cycle scan. -/
def settleScanStep (winner_set : List Nat) (acc : SettleAcc) (p : Pick) : SettleAcc :=
  let acc :=
    if acc.participant_ids.contains p.user_id then acc
    else { acc with participant_ids := acc.participant_ids ++ [p.user_id] }
  if winner_set.contains p.candidate_id then
    let reward := dictGet RANK_REWARDS p.rank 0
    { acc with
      user_rewards := dictBump acc.user_rewards p.user_id reward
      user_hits := dictBump acc.user_hits p.user_id 1 }
  else acc

/-- The full pick scan of settle_cycle (the source reads the picks after
save_cycle_results, which leaves picks and candidates untouched, so reading the
pre-state is equal). -/
def settleScan (s : Storage) (cycle_id : Nat) (winner_set : List Nat) : SettleAcc :=
  (Storage.list_picks s cycle_id).foldl (settleScanStep winner_set) ⟨[], [], []⟩

/-- An un-ranked leaderboard entry of settle_cycle. -/
structure RankingEntry where
  user_id : Nat
  correct_count : Nat
  reward_chips : Int
deriving DecidableEq, Repr

/-- A ranked leaderboard entry (models.SettlementEntry). -/
structure SettlementEntry where
  user_id : Nat
  correct_count : Nat
  reward_chips : Int
  rank : Nat
deriving DecidableEq, Repr

/-- The (reward_chips, correct_count) sort key of a leaderboard entry. -/
def entryKey (e : RankingEntry) : Int × Nat := (e.reward_chips, e.correct_count)

/-- Descending stable-sort predicate on entries: a may precede b exactly when b's
key is lexicographically no greater than a's (Python sort with reverse=True). -/
def entryKeyLe (a b : RankingEntry) : Bool :=
  decide (b.reward_chips < a.reward_chips) ||
    (a.reward_chips == b.reward_chips && decide (b.correct_count ≤ a.correct_count))

/-- ranking_entries.sort(key=(reward_chips, correct_count), reverse=True). -/
def sortEntries (l : List RankingEntry) : List RankingEntry := isortBy entryKeyLe l

/-- The rank-assignment walk of settle_cycle: idx counts 1-based positions,
current_rank is refreshed to idx whenever a strictly new key appears. -/
def assignRanksAux : List RankingEntry → Nat → Nat → Option (Int × Nat) → List SettlementEntry
  | [], _, _, _ => []
  | e :: rest, idx, current_rank, prev =>
    if some (entryKey e) ≠ prev then
      { user_id := e.user_id, correct_count := e.correct_count,
        reward_chips := e.reward_chips, rank := idx } ::
        assignRanksAux rest (idx + 1) idx (some (entryKey e))
    else
      { user_id := e.user_id, correct_count := e.correct_count,
        reward_chips := e.reward_chips, rank := current_rank } ::
        assignRanksAux rest (idx + 1) current_rank prev

/-- Standard competition ranking as settle_cycle implements it. -/
def assignRanks (l : List RankingEntry) : List SettlementEntry :=
  assignRanksAux l 1 0 none

/-- The un-ranked leaderboard entries of settle_cycle: one per participant in
first-pick order. -/
def settleEntries (s : Storage) (cycle_id : Nat) (winner_set : List Nat) : List RankingEntry :=
  let acc := settleScan s cycle_id winner_set
  acc.participant_ids.map fun u =>
    ({ user_id := u, correct_count := dictGet acc.user_hits u 0,
       reward_chips := dictGet acc.user_rewards u 0 } : RankingEntry)

/-- The leaderboard settle_cycle returns: the participant entries sorted
descending by key, then competition-ranked. -/
def settleRanking (s : Storage) (cycle_id : Nat) (winner_set : List Nat) : List SettlementEntry :=
  assignRanks (sortEntries (settleEntries s cycle_id winner_set))

/-- The sequence of database transactions settle_cycle commits, in order: the
save_cycle_results transaction (result rows plus status flip), then one
credit_user_chips transaction per positively rewarded user in dict insertion
order.  A mid-way failure leaves exactly the state after some prefix. -/
def settleTxns (s : Storage) (cycle_id : Nat) (winner_urls : List String) (now : Int) :
    List (Storage → Storage) :=
  let winner_set := winnerIdsOf s cycle_id winner_urls
  let acc := settleScan s cycle_id winner_set
  (fun st => Storage.save_cycle_results st cycle_id winner_set now) ::
    (acc.user_rewards.filter (fun ur => decide (0 < ur.2))).map (fun ur st =>
      Storage.credit_user_chips st ur.1 ur.2 "prediction_reward" (some cycle_id))

/-- The state reached when settle_cycle fails after its first k transactions. -/
def settlePartial (s : Storage) (cycle_id : Nat) (winner_urls : List String) (now : Int)
    (k : Nat) : Storage :=
  ((settleTxns s cycle_id winner_urls now).take k).foldl (fun st f => f st) s

/-- The summary settle_cycle returns (the static reward_model echo of the constant
tables is not modelled). -/
structure SettleOutcome where
  cycle_id : Nat
  winner_candidate_ids : List Nat
  winner_count : Nat
  ranking : List SettlementEntry
deriving DecidableEq, Repr

namespace MarketService

/-- settle_cycle: resolve winners, commit the transaction sequence, and report the
winner list with the competition-ranked leaderboard. -/
def settle_cycle (s : Storage) (cycle_id : Nat) (winner_urls : List String) (now : Int) :
    SettleOutcome × Storage :=
  let winner_set := winnerIdsOf s cycle_id winner_urls
  let st := (settleTxns s cycle_id winner_urls now).foldl (fun st f => f st) s
  ({ cycle_id := cycle_id, winner_candidate_ids := winner_set,
     winner_count := winner_set.length,
     ranking := settleRanking s cycle_id winner_set }, st)

end MarketService

/-- The structured result of MarketService.apply_curation_rewards. -/
structure CurationOutcome where
  awarded : Bool
  reason : String
  rows : List CurationRow
deriving DecidableEq, Repr

namespace MarketService

/-- apply_curation_rewards (service level): refuse un-settled cycles, respect the
min_age_hours wait window after closed_at unless forced, then delegate to the
storage allocator; an unknown cycle id raises KeyError (modelled as none). -/
def apply_curation_rewards (s : Storage) (cycle_id : Nat) (min_age_hours : Int)
    (force : Bool) (now : Int) : Option (CurationOutcome × Storage) :=
  match Storage.get_cycle s cycle_id with
  | none => none
  | some cycle =>
    if cycle.status ≠ .SETTLED then
      some ({ awarded := false, reason := "cycle_not_settled", rows := [] }, s)
    else
      let waiting :=
        match force, cycle.closed_at with
        | false, some closed_at => decide (now - closed_at < min_age_hours * 3600)
        | _, _ => false
      if waiting then
        some ({ awarded := false, reason := "wait_window", rows := [] }, s)
      else
        let rs := Storage.apply_curation_rewards s cycle_id
        if rs.1.isEmpty then
          some ({ awarded := false, reason := "none_or_already_awarded", rows := [] }, rs.2)
        else
          some ({ awarded := true, reason := "ok", rows := rs.1 }, rs.2)

end MarketService

end TCMarket

namespace TCMarket

/-! Embedding of JobService.run_daily_faucet (jobs.py). -/

/-- The structured outcome of run_daily_faucet. -/
structure FaucetOutcome where
  skipped : Bool
  run_key : String
  credited : List (Nat × Int)
deriving DecidableEq, Repr

/-- The faucet run key: the target date itself (the ISO date string is modelled by
printing the day number). -/
def faucetRunKey (as_of_date : Int) : String := toString as_of_date

namespace JobService

/-- run_daily_faucet: claim the (daily_faucet, date) marker unless forced —
force short-circuits the claim call entirely — and apply the faucet when not
skipped. -/
def run_daily_faucet (s : Storage) (as_of_date : Int) (force : Bool) :
    FaucetOutcome × Storage :=
  let run_key := faucetRunKey as_of_date
  if force then
    let cs := Storage.apply_daily_faucet s as_of_date
    ({ skipped := false, run_key := run_key, credited := cs.1 }, cs.2)
  else
    match Storage.claim_job_run s "daily_faucet" run_key with
    | (false, s1) => ({ skipped := true, run_key := run_key, credited := [] }, s1)
    | (true, s1) =>
      let cs := Storage.apply_daily_faucet s1 as_of_date
      ({ skipped := false, run_key := run_key, credited := cs.1 }, cs.2)

end JobService

/-! Embedding of the prediction strategy runtime (model_agents.py).  The dynamic
importlib strategy loading is modelled by pairing each configuration with the
strategy it loads; the claims quantify over arbitrary strategies. -/

/-- models.ModelAgentConfig restricted to the fields the runner reads (provider,
strategy_profile and temperature are configuration pass-through). -/
structure ModelAgentConfig where
  id : String
  model_name : String
  enabled : Bool
  max_daily_picks : Nat
deriving DecidableEq, Repr

/-- The ModelStrategy capability set: per-candidate probabilities (a dict keyed by
candidate id) and a per-candidate explanation. -/
structure ModelStrategy where
  predict_probabilities : ModelAgentConfig → List CandidateLink → List (Nat × ℚ)
  explain_choice : ModelAgentConfig → CandidateLink → ℚ → Bool → String

/-- _normalize_probabilities: default every candidate to zero, clamp negatives,
and normalize by the total, falling back to the uniform distribution when the
total is non-positive. -/
def normalizeProbs (probs : List (Nat × ℚ)) (candidates : List CandidateLink) :
    List (Nat × ℚ) :=
  let withAll := candidates.foldl (fun acc c => dictSetDefault acc c.id 0) probs
  let safe_scores := withAll.map (fun kv => (kv.1, max 0 kv.2))
  let total := qsum (safe_scores.map Prod.snd)
  if total ≤ 0 then
    let uniform := if candidates.isEmpty then 0 else mkRat 1 candidates.length
    candidates.map (fun c => (c.id, uniform))
  else
    candidates.map (fun c => (c.id, qdiv (dictGet safe_scores c.id 0) total))

/-- One output row of a model pass (the per-candidate dict run_cycle returns). -/
structure PredictionOut where
  candidate_id : Nat
  probability : ℚ
  explanation : String
  selected : Bool
deriving DecidableEq, Repr

/-- The per-model summary run_cycle returns. -/
structure ModelPassOut where
  model_user_id : Nat
  selected_count : Nat
  predictions : List PredictionOut
deriving DecidableEq, Repr

/-- The ValueError message raised for a blank explanation on a selected
candidate (the interpolated candidate id is not modelled). -/
def explErrMsg (cfg : ModelAgentConfig) : String :=
  "Model " ++ cfg.id ++ " must provide explanation for selected candidate"

/-- The per-candidate upsert loop of run_cycle: explanations for selected
candidates must be non-blank (otherwise ValueError aborts the pass, leaving the
rows already upserted in place); every candidate gets an upserted prediction
row.  An error carries the storage state at the raise. -/
def upsertLoop (cfg : ModelAgentConfig) (strat : ModelStrategy) (cycle_id : Nat)
    (model_user_id : Nat) (probs : List (Nat × ℚ)) (selected_ids : List Nat) :
    List CandidateLink → Storage → List PredictionOut →
    Except (String × Storage) (List PredictionOut × Storage)
  | [], s, acc => .ok (acc, s)
  | c :: rest, s, acc =>
    let selected := selected_ids.contains c.id
    let probability := dictGet probs c.id 0
    let explanation := strat.explain_choice cfg c probability selected
    if selected && (stripChars explanation.data).isEmpty then
      .error (explErrMsg cfg, s)
    else
      let s1 := Storage.upsert_model_prediction s cycle_id model_user_id c.id
        probability explanation
      upsertLoop cfg strat cycle_id model_user_id probs selected_ids rest s1
        (acc ++ [{ candidate_id := c.id, probability := probability,
                   explanation := explanation, selected := selected }])

/-- The normalized probability dict a strategy yields for a cycle's candidates. -/
def modelProbs (s : Storage) (cycle_id : Nat) (cfg : ModelAgentConfig)
    (strat : ModelStrategy) : List (Nat × ℚ) :=
  normalizeProbs (strat.predict_probabilities cfg (Storage.list_candidates s cycle_id))
    (Storage.list_candidates s cycle_id)

/-- sorted(candidates, key=probability, reverse=True): the stable descending
ordering of the cycle's candidates, creation order preserved on ties. -/
def modelRanked (s : Storage) (cycle_id : Nat) (cfg : ModelAgentConfig)
    (strat : ModelStrategy) : List CandidateLink :=
  isortBy
    (fun a b => decide (dictGet (modelProbs s cycle_id cfg strat) b.id 0 ≤
      dictGet (modelProbs s cycle_id cfg strat) a.id 0))
    (Storage.list_candidates s cycle_id)

/-- pick_cap = min(config cap, global cap, candidate count). -/
def modelPickCap (s : Storage) (cycle_id : Nat) (cfg : ModelAgentConfig)
    (strat : ModelStrategy) : Nat :=
  min cfg.max_daily_picks (min MAX_PICKS_PER_CYCLE (modelRanked s cycle_id cfg strat).length)

/-- The ordered candidate ids a model pass selects and submits as picks. -/
def modelSelectedIds (s : Storage) (cycle_id : Nat) (cfg : ModelAgentConfig)
    (strat : ModelStrategy) : List Nat :=
  ((modelRanked s cycle_id cfg strat).take (modelPickCap s cycle_id cfg strat)).map
    (fun c => c.id)

/-- One enabled configuration's pass of run_cycle: create or fetch the agent user,
normalize the strategy's probabilities, select the top pick_cap candidates by
probability (stable descending sort, creation order on ties), submit them through
the human pick path, then upsert a prediction row per candidate. -/
def runModelConfig (s : Storage) (cycle_id : Nat) (cfg : ModelAgentConfig)
    (strat : ModelStrategy) : Except (String × Storage) (ModelPassOut × Storage) :=
  let candidates := Storage.list_candidates s cycle_id
  let us := Storage.get_or_create_ai_user s cfg.id
  let model_user := us.1
  let s1 := us.2
  let probs := modelProbs s cycle_id cfg strat
  let selected_ids := modelSelectedIds s cycle_id cfg strat
  match Storage.set_ranked_picks s1 cycle_id model_user.id selected_ids with
  | .error e => .error (e, s1)
  | .ok (_, s2) =>
    match upsertLoop cfg strat cycle_id model_user.id probs selected_ids candidates s2 [] with
    | .error es => .error es
    | .ok (rows, s3) =>
      let model_rows := isortBy (fun a b => decide (b.probability ≤ a.probability)) rows
      .ok ({ model_user_id := model_user.id, selected_count := selected_ids.length,
             predictions := model_rows }, s3)

/-- The config loop of run_cycle: skip disabled configurations, thread the storage
through each enabled pass, and abort the whole cycle run on the first error. -/
def runConfigs (cycle_id : Nat) :
    List (ModelAgentConfig × ModelStrategy) → Storage → List (String × ModelPassOut) →
    Except (String × Storage) (List (String × ModelPassOut) × Storage)
  | [], s, acc => .ok (acc, s)
  | (cfg, strat) :: rest, s, acc =>
    if cfg.enabled then
      match runModelConfig s cycle_id cfg strat with
      | .error e => .error e
      | .ok (out, s1) => runConfigs cycle_id rest s1 (acc ++ [(cfg.id, out)])
    else runConfigs cycle_id rest s acc

namespace ModelRunner

/-- run_cycle: nothing happens without candidates; otherwise run every enabled
configured agent in order. -/
def run_cycle (s : Storage) (cycle_id : Nat)
    (configs : List (ModelAgentConfig × ModelStrategy)) :
    Except (String × Storage) (List (String × ModelPassOut) × Storage) :=
  if (Storage.list_candidates s cycle_id).isEmpty then .ok ([], s)
  else runConfigs cycle_id configs s []

end ModelRunner

end TCMarket

namespace TCMarket

/-! Concrete fixtures used by the claim theorems. -/

/-- A storage with one human user (id 0) and one open cycle (id 1). -/
def oneUserStore : Storage :=
  (Storage.create_cycle (Storage.insert_user initStorage "Alice" "alice@example.com" "HUMAN" 0).2 0).2

/-- A storage with three users (ids 0, 1, 2) and one open cycle (id 3). -/
def threeUserStore : Storage :=
  (Storage.create_cycle
    (Storage.insert_user
      (Storage.insert_user
        (Storage.insert_user initStorage "Alice" "alice@example.com" "HUMAN" 0).2
        "Bob" "bob@example.com" "HUMAN" 0).2
      "Cara" "cara@example.com" "HUMAN" 0).2 0).2

end TCMarket

open TCMarket

/-- Claim C9 fixture: submit the first tracking-tagged URL to cycle 1. -/
def c9First : CandidateLink × Storage :=
  Storage.create_candidate oneUserStore 1 0 "https://example.com/a?utm_source=x" ""

/-- Claim C9 fixture: submit the second tracking-tagged URL, canonically equal to
the first. -/
def c9Second : CandidateLink × Storage :=
  Storage.create_candidate c9First.2 1 0 "https://example.com/a?utm_campaign=y" ""

/-- Claim C9 fixture: submit a canonically distinct URL to the same cycle. -/
def c9Third : CandidateLink × Storage :=
  Storage.create_candidate c9Second.2 1 0 "https://example.com/b" ""

/-- Claim C9: candidate submission dedupes by canonical URL within a cycle — the
two utm-tagged variants of example.com/a canonicalize identically, so the second
submission returns the first record and writes nothing, leaving one candidate,
while example.com/b canonicalizes differently and creates a distinct second
record. -/
theorem claim_C9 :
    canonicalize_url "https://example.com/a?utm_source=x" =
        canonicalize_url "https://example.com/a?utm_campaign=y" ∧
      canonicalize_url "https://example.com/b" ≠
        canonicalize_url "https://example.com/a?utm_source=x" ∧
      c9Second.1 = c9First.1 ∧
      c9Second.2 = c9First.2 ∧
      (Storage.list_candidates c9Second.2 1).length = 1 ∧
      c9Third.1.id ≠ c9First.1.id ∧
      (Storage.list_candidates c9Third.2 1).length = 2 := by
  decide

/-- Claim C6 fixture: three submitters (users 0, 1, 2) with one candidate each in
cycle 3 and unique click counts 5, 5, 3 on their candidates. -/
def c6Store : Storage :=
  let s1 := (Storage.create_candidate threeUserStore 3 0 "https://a.example/one" "A").2
  let s2 := (Storage.create_candidate s1 3 1 "https://b.example/two" "B").2
  let s3 := (Storage.create_candidate s2 3 2 "https://c.example/three" "C").2
  { s3 with click_events :=
      List.replicate 5 ({ cycle_id := 3, candidate_id := 4 } : ClickEvent) ++
      List.replicate 5 ({ cycle_id := 3, candidate_id := 5 } : ClickEvent) ++
      List.replicate 3 ({ cycle_id := 3, candidate_id := 6 } : ClickEvent) }

/-- Claim C6 fixture: the first application of the curation allocator to cycle 3. -/
def c6Applied : List CurationRow × Storage := Storage.apply_curation_rewards c6Store 3

/-- Claim C6: with click counts 5, 5, 3 and the reward table 40/20/10, the two
tied submitters each get a row at rank 1 worth round((40+20)/2) = 30, the third
gets a row at rank 3 worth 10, every tied member is recorded at the first position
of its run, and re-running apply_curation_rewards on the same cycle returns no new
rows. -/
theorem claim_C6 :
    Storage.compute_curation_reward_rows c6Store 3 =
        [{ user_id := 0, rank := 1, unique_clicks := 5, reward_chips := 30 },
         { user_id := 1, rank := 1, unique_clicks := 5, reward_chips := 30 },
         { user_id := 2, rank := 3, unique_clicks := 3, reward_chips := 10 }] ∧
      c6Applied.1 = Storage.compute_curation_reward_rows c6Store 3 ∧
      (Storage.apply_curation_rewards c6Applied.2 3).1 = [] ∧
      (Storage.apply_curation_rewards c6Applied.2 3).2 = c6Applied.2 := by
  decide

namespace TCMarket

/-- A sequence of n claim_job_run calls with one fixed (job_name, run_key) pair,
threading the storage; returns the call results in order. -/
def claimSeq (job run_key : String) : Storage → Nat → List Bool × Storage
  | s, 0 => ([], s)
  | s, n + 1 =>
    let c := Storage.claim_job_run s job run_key
    let rest := claimSeq job run_key c.2 n
    (c.1 :: rest.1, rest.2)

/-- Once a marker for the pair exists, every further claim returns false and
leaves the storage unchanged. -/
theorem claimSeq_after_marker (job run_key : String) (s : Storage)
    (h : s.job_runs.any (fun j => j.job_name == job && j.run_key == run_key) = true) :
    ∀ n, claimSeq job run_key s n = (List.replicate n false, s) := by
  intro n
  induction n with
  | zero => simp [claimSeq]
  | succ n ih => simp [claimSeq, Storage.claim_job_run, h, ih, List.replicate_succ]

/-- Claiming on marker-free storage records the marker. -/
theorem claim_job_run_fresh (job run_key : String) (s : Storage)
    (h : s.job_runs.any (fun j => j.job_name == job && j.run_key == run_key) = false) :
    Storage.claim_job_run s job run_key =
      (true, { s with job_runs := s.job_runs ++ [{ job_name := job, run_key := run_key }] }) := by
  simp [Storage.claim_job_run, h]

end TCMarket

/-- Claim C4: for a (job_name, run_key) pair with no prior marker, the first
claim_job_run call returns true and every subsequent call with the same pair
returns false, so across any such call sequence exactly one call returns true. -/
theorem claim_C4 (s : Storage) (job run_key : String) (n : Nat)
    (h : s.job_runs.any (fun j => j.job_name == job && j.run_key == run_key) = false) :
    (claimSeq job run_key s (n + 1)).1 = true :: List.replicate n false ∧
      ((claimSeq job run_key s (n + 1)).1.count true = 1) := by
  have hstep := claim_job_run_fresh job run_key s h
  have hmarked :
      ({ s with job_runs := s.job_runs ++ [{ job_name := job, run_key := run_key }] } :
          Storage).job_runs.any
        (fun j => j.job_name == job && j.run_key == run_key) = true := by
    simp
  have hrest := claimSeq_after_marker job run_key _ hmarked n
  constructor
  · simp [claimSeq, hstep, hrest]
  · simp [claimSeq, hstep, hrest, List.count_replicate]

/-- Witness for claim C4 at the concrete key of the spec's example, with three
calls on a fresh storage. -/
theorem claim_C4_witness :
    (claimSeq "daily_faucet" "2026-02-09" initStorage 3).1 = true :: List.replicate 2 false ∧
      ((claimSeq "daily_faucet" "2026-02-09" initStorage 3).1.count true = 1) :=
  claim_C4 initStorage "daily_faucet" "2026-02-09" 2 (by decide)

namespace TCMarket

/-- The faucet loop touches only balances and the ledger; the job_runs table is
untouched by any prefix. -/
theorem faucet_foldl_job_runs (as_of : Int) :
    ∀ (l : List UserRec) (acc : List (Nat × Int) × Storage),
      ((l.foldl (Storage.faucetStep as_of) acc).2).job_runs = acc.2.job_runs := by
  intro l
  induction l with
  | nil => intro acc; rfl
  | cons r rest ih =>
    intro acc
    rw [List.foldl_cons, ih]
    simp only [Storage.faucetStep]
    split <;> rfl

/-- apply_daily_faucet never changes the job_runs table. -/
theorem apply_daily_faucet_job_runs (s : Storage) (as_of : Int) :
    (Storage.apply_daily_faucet s as_of).2.job_runs = s.job_runs :=
  faucet_foldl_job_runs as_of s.users ([], s)

/-- An un-forced faucet run on a storage already holding the marker for its run
key is skipped. -/
theorem unforced_faucet_skips (s : Storage) (d : Int)
    (h : (s.job_runs.any fun j => j.job_name == "daily_faucet" && j.run_key == faucetRunKey d) = true) :
    (JobService.run_daily_faucet s d false).1.skipped = true := by
  simp [JobService.run_daily_faucet, Storage.claim_job_run, h]

/-- An un-forced faucet run on a storage without the marker for its run key
executes. -/
theorem unforced_faucet_executes (s : Storage) (d : Int)
    (h : (s.job_runs.any fun j => j.job_name == "daily_faucet" && j.run_key == faucetRunKey d) = false) :
    (JobService.run_daily_faucet s d false).1.skipped = false := by
  simp [JobService.run_daily_faucet, Storage.claim_job_run, h]

end TCMarket

/-- Counterexample to claim C3 as stated: on a fresh storage with one user, a
forced daily-faucet run followed by an un-forced run at the same run key leaves
the un-forced run executing (skipped = false), not treated as already done,
because the forced run never recorded a marker. -/
theorem claim_C3_counterexample :
    ((JobService.run_daily_faucet
        (JobService.run_daily_faucet oneUserStore 5 true).2 5 false).1).skipped = false := by
  decide

/-- Claim C3 (amended): a forced run bypasses the claim check and records no
marker (and clears none): its job_runs table is exactly the prior one.  Hence a
forced run followed by an un-forced run at the same key skips the un-forced run
exactly when a marker for that key already existed before the forced run; on a
previously unclaimed key the un-forced run executes. -/
theorem claim_C3 (s : Storage) (as_of_date : Int) :
    ((JobService.run_daily_faucet s as_of_date true).2.job_runs = s.job_runs) ∧
      ((s.job_runs.any fun j =>
          j.job_name == "daily_faucet" && j.run_key == faucetRunKey as_of_date) = true →
        ((JobService.run_daily_faucet
            (JobService.run_daily_faucet s as_of_date true).2 as_of_date false).1).skipped
          = true) ∧
      ((s.job_runs.any fun j =>
          j.job_name == "daily_faucet" && j.run_key == faucetRunKey as_of_date) = false →
        ((JobService.run_daily_faucet
            (JobService.run_daily_faucet s as_of_date true).2 as_of_date false).1).skipped
          = false) := by
  have hforced :
      (JobService.run_daily_faucet s as_of_date true).2.job_runs = s.job_runs := by
    simp [JobService.run_daily_faucet, apply_daily_faucet_job_runs]
  refine ⟨hforced, fun h => ?_, fun h => ?_⟩
  · exact unforced_faucet_skips _ _ (by rw [hforced]; exact h)
  · exact unforced_faucet_executes _ _ (by rw [hforced]; exact h)

/-- Witness for claim C3, discharging both marker hypotheses at concrete
storages: one whose job_runs already holds the (daily_faucet, day 5) marker and a
fresh one. -/
theorem claim_C3_witness :
    (((JobService.run_daily_faucet
        (JobService.run_daily_faucet
          { initStorage with job_runs := [{ job_name := "daily_faucet", run_key := "5" }] }
          5 true).2 5 false).1).skipped = true) ∧
      (((JobService.run_daily_faucet
          (JobService.run_daily_faucet initStorage 5 true).2 5 false).1).skipped = false) :=
  ⟨(claim_C3 { initStorage with
      job_runs := [{ job_name := "daily_faucet", run_key := "5" }] } 5).2.1 (by decide),
   (claim_C3 initStorage 5).2.2 (by decide)⟩

/-- Claim C10: the service-level curation reward entry point gates on cycle state
beyond the existence check: a non-SETTLED cycle yields awarded=false with reason
cycle_not_settled and no state change, and a SETTLED cycle called without force
within min_age_hours of its closed_at timestamp yields awarded=false with reason
wait_window and no state change. -/
theorem claim_C10 (s : Storage) (cycle_id : Nat) (min_age_hours : Int) (force : Bool)
    (now : Int) (c : Cycle) (hc : Storage.get_cycle s cycle_id = some c) :
    (c.status ≠ .SETTLED →
      MarketService.apply_curation_rewards s cycle_id min_age_hours force now =
        some ({ awarded := false, reason := "cycle_not_settled", rows := [] }, s)) ∧
      (∀ t, c.status = .SETTLED → force = false → c.closed_at = some t →
        now - t < min_age_hours * 3600 →
        MarketService.apply_curation_rewards s cycle_id min_age_hours force now =
          some ({ awarded := false, reason := "wait_window", rows := [] }, s)) := by
  constructor
  · intro hst
    simp [MarketService.apply_curation_rewards, hc, hst]
  · intro t hst hf hca hlt
    subst hf
    simp [MarketService.apply_curation_rewards, hc, hst, hca, hlt]

/-- Claim C10 fixture: the one-user storage with its cycle flipped to SETTLED and
closed at time 1000. -/
def c10Settled : Storage :=
  { oneUserStore with
    cycles := [{ id := 1, cycle_date := 0, status := .SETTLED, closed_at := some 1000 }] }

/-- Witness for claim C10: the OPEN cycle of the one-user storage is refused as
cycle_not_settled, and the settled fixture called 1000 seconds after closing (well
inside the default 24-hour window) is refused as wait_window. -/
theorem claim_C10_witness :
    (MarketService.apply_curation_rewards oneUserStore 1 24 false 0 =
        some ({ awarded := false, reason := "cycle_not_settled", rows := [] }, oneUserStore)) ∧
      (MarketService.apply_curation_rewards c10Settled 1 24 false 2000 =
        some ({ awarded := false, reason := "wait_window", rows := [] }, c10Settled)) :=
  ⟨(claim_C10 oneUserStore 1 24 false 0
      { id := 1, cycle_date := 0, status := .OPEN, closed_at := none } (by decide)).1
      (by decide),
   (claim_C10 c10Settled 1 24 false 2000
      { id := 1, cycle_date := 0, status := .SETTLED, closed_at := some 1000 } (by decide)).2
      1000 (by decide) (by decide) (by decide) (by decide)⟩

namespace TCMarket

/-- Claim C1 fixture: three users, one candidate (id 4, submitted by user 2) in
cycle 3, and a rank-1 pick of it by each of users 0 and 1, so settlement rewards
two users. -/
def c1Store : Storage :=
  let s1 := (Storage.create_candidate threeUserStore 3 2 "https://win.example/x" "W").2
  { s1 with picks :=
      [{ cycle_id := 3, user_id := 0, candidate_id := 4, rank := 1 },
       { cycle_id := 3, user_id := 1, candidate_id := 4, rank := 1 }] }

/-- The status the storage records for a cycle id. -/
def cycleStatusOf (s : Storage) (cycle_id : Nat) : Option CycleStatus :=
  (Storage.get_cycle s cycle_id).map Cycle.status

/-- credit_user_chips leaves the cycles table unchanged. -/
theorem credit_user_chips_cycles (st : Storage) (u : Nat) (d : Int) (e : String)
    (cid : Option Nat) : (Storage.credit_user_chips st u d e cid).cycles = st.cycles := by
  unfold Storage.credit_user_chips
  split <;> rfl

/-- A run of reward credits leaves the cycles table unchanged. -/
theorem creditPairFold_cycles (cid : Nat) :
    ∀ (l : List (Nat × Int)) (st : Storage),
      ((l.foldl (fun st ur => Storage.credit_user_chips st ur.1 ur.2 "prediction_reward"
          (some cid)) st)).cycles = st.cycles := by
  intro l
  induction l with
  | nil => intro st; rfl
  | cons a rest ih =>
    intro st
    rw [List.foldl_cons, ih, credit_user_chips_cycles]

/-- save_cycle_results flips exactly the target cycle to SETTLED and stamps its
close time. -/
theorem save_cycle_results_status (st : Storage) (cid : Nat) (w : List Nat) (now : Int)
    (c : Cycle) (hc : Storage.get_cycle st cid = some c) :
    Storage.get_cycle (Storage.save_cycle_results st cid w now) cid =
      some { c with status := .SETTLED, closed_at := some now } := by
  simp only [Storage.get_cycle] at hc ⊢
  simp only [Storage.save_cycle_results]
  rw [List.find?_map]
  have hpred : ((fun x : Cycle => x.id == cid) ∘ (fun c : Cycle =>
      if c.id == cid then { c with status := CycleStatus.SETTLED, closed_at := some now }
      else c)) = fun x : Cycle => x.id == cid := by
    funext x
    by_cases h : x.id = cid <;> simp [h]
  rw [hpred, hc]
  have hcid := List.find?_some hc
  simp only at hcid
  simp [hcid]
  intro h
  exact absurd (by simpa using hcid) h

/-- A stopped settlement run is the save transaction followed by a prefix of the
per-user reward credits. -/
theorem settlePartial_succ (s : Storage) (cycle_id : Nat) (winner_urls : List String)
    (now : Int) (j : Nat) :
    settlePartial s cycle_id winner_urls now (j + 1) =
      (((settleScan s cycle_id (winnerIdsOf s cycle_id winner_urls)).user_rewards.filter
          (fun ur => decide (0 < ur.2))).take j).foldl
        (fun st ur => Storage.credit_user_chips st ur.1 ur.2 "prediction_reward" (some cycle_id))
        (Storage.save_cycle_results s cycle_id (winnerIdsOf s cycle_id winner_urls) now) := by
  simp only [settlePartial, settleTxns, List.take_succ_cons, List.foldl_cons]
  rw [← List.map_take]
  generalize (Storage.save_cycle_results s cycle_id (winnerIdsOf s cycle_id winner_urls) now) = st
  generalize ((settleScan s cycle_id (winnerIdsOf s cycle_id winner_urls)).user_rewards.filter
      (fun ur => decide (0 < ur.2))).take j = l
  induction l generalizing st with
  | nil => rfl
  | cons a rest ih => simp [List.foldl_cons, ih]

end TCMarket

/-- Counterexample to claim C1 as stated: settlement is not one unit.  On a cycle
where two users both earn a reward, the commit sequence has three transactions
(results-and-status, then one credit per user); failing after the second leaves a
state that is neither the initial one nor the fully settled one — the cycle is
SETTLED with user 0's prediction-reward ledger entry written and user 1's missing,
an observable partial state. -/
theorem claim_C1_counterexample :
    (settleTxns c1Store 3 ["https://win.example/x"] 999).length = 3 ∧
      settlePartial c1Store 3 ["https://win.example/x"] 999 2 ≠ c1Store ∧
      settlePartial c1Store 3 ["https://win.example/x"] 999 2 ≠
        settlePartial c1Store 3 ["https://win.example/x"] 999 3 ∧
      cycleStatusOf (settlePartial c1Store 3 ["https://win.example/x"] 999 2) 3 =
        some .SETTLED ∧
      ((settlePartial c1Store 3 ["https://win.example/x"] 999 2).chip_ledger.any fun e =>
        e.user_id == 0 && e.event_type == "prediction_reward") = true ∧
      ((settlePartial c1Store 3 ["https://win.example/x"] 999 2).chip_ledger.any fun e =>
        e.user_id == 1 && e.event_type == "prediction_reward") = false := by
  decide

/-- Claim C1 (amended): the result rows and the OPEN-to-SETTLED flip are one
transaction, and reward credits are committed only after it, so after any failure
prefix of settle_cycle (k transactions committed): if the cycle is still OPEN the
state is exactly the initial one (retry is safe); result rows for the cycle exist
only with the cycle SETTLED; and prediction-reward ledger entries for the cycle
exist only with the cycle SETTLED.  Crediting, however, is one transaction per
rewarded user, not part of that unit, so a failure between credits leaves a
SETTLED cycle with only part of the rewards credited (see the counterexample). -/
theorem claim_C1 (s : Storage) (cycle_id : Nat) (winner_urls : List String) (now : Int)
    (k : Nat) (c : Cycle)
    (hc : Storage.get_cycle s cycle_id = some c)
    (hres : (s.cycle_results.any fun r => r.cycle_id == cycle_id) = false)
    (hled : (s.chip_ledger.any fun e =>
        e.event_type == "prediction_reward" && e.cycle_id == some cycle_id) = false) :
    (cycleStatusOf (settlePartial s cycle_id winner_urls now k) cycle_id = some .OPEN →
      settlePartial s cycle_id winner_urls now k = s) ∧
      (((settlePartial s cycle_id winner_urls now k).cycle_results.any
          fun r => r.cycle_id == cycle_id) = true →
        cycleStatusOf (settlePartial s cycle_id winner_urls now k) cycle_id = some .SETTLED) ∧
      (((settlePartial s cycle_id winner_urls now k).chip_ledger.any fun e =>
          e.event_type == "prediction_reward" && e.cycle_id == some cycle_id) = true →
        cycleStatusOf (settlePartial s cycle_id winner_urls now k) cycle_id = some .SETTLED) := by
  cases k with
  | zero =>
    have h0 : settlePartial s cycle_id winner_urls now 0 = s := rfl
    refine ⟨fun _ => h0, fun h => ?_, fun h => ?_⟩
    · rw [h0] at h
      exact absurd h (by rw [hres]; simp)
    · rw [h0] at h
      exact absurd h (by rw [hled]; simp)
  | succ j =>
    have hcyc : (settlePartial s cycle_id winner_urls now (j + 1)).cycles =
        (Storage.save_cycle_results s cycle_id (winnerIdsOf s cycle_id winner_urls) now).cycles := by
      rw [settlePartial_succ]
      exact creditPairFold_cycles cycle_id _ _
    have hstat : cycleStatusOf (settlePartial s cycle_id winner_urls now (j + 1)) cycle_id =
        some .SETTLED := by
      unfold cycleStatusOf Storage.get_cycle
      rw [hcyc]
      have hsv := save_cycle_results_status s cycle_id (winnerIdsOf s cycle_id winner_urls) now c hc
      unfold Storage.get_cycle at hsv
      rw [hsv]
      rfl
    refine ⟨fun h => ?_, fun _ => hstat, fun _ => hstat⟩
    rw [hstat] at h
    simp at h

/-- Witness for claim C1 on the two-rewarded-users fixture: a failure after one
transaction leaves the cycle SETTLED, and result rows imply SETTLED there; a
failure after zero transactions leaves the initial (OPEN) state unchanged. -/
theorem claim_C1_witness :
    cycleStatusOf (settlePartial c1Store 3 ["https://win.example/x"] 999 1) 3 =
        some .SETTLED ∧
      settlePartial c1Store 3 ["https://win.example/x"] 999 0 = c1Store :=
  ⟨(claim_C1 c1Store 3 ["https://win.example/x"] 999 1
      { id := 3, cycle_date := 0, status := .OPEN, closed_at := none }
      (by decide) (by decide) (by decide)).2.1 (by decide),
   (claim_C1 c1Store 3 ["https://win.example/x"] 999 0
      { id := 3, cycle_date := 0, status := .OPEN, closed_at := none }
      (by decide) (by decide) (by decide)).1 (by decide)⟩

namespace TCMarket

/-- A candidate on which the explainability contract fails: selected but with a
blank explanation. -/
def badFor (cfg : ModelAgentConfig) (strat : ModelStrategy) (probs : List (Nat × ℚ))
    (sel : List Nat) (c : CandidateLink) : Bool :=
  sel.contains c.id &&
    (stripChars (strat.explain_choice cfg c (dictGet probs c.id 0) (sel.contains c.id)).data).isEmpty

/-- The prediction row a model pass upserts for one candidate. -/
def modelRow (cfg : ModelAgentConfig) (strat : ModelStrategy) (cid mu : Nat)
    (probs : List (Nat × ℚ)) (sel : List Nat) (c : CandidateLink) : ModelPredictionRow :=
  { cycle_id := cid, model_user_id := mu, candidate_id := c.id,
    probability := dictGet probs c.id 0,
    explanation := strat.explain_choice cfg c (dictGet probs c.id 0) (sel.contains c.id) }

/-- When some candidate in the list violates the explainability contract, the
upsert loop raises at the first such candidate, and the rows persisted at that
point are exactly the prediction rows of the candidates before it. -/
theorem upsertLoop_of_bad (cfg : ModelAgentConfig) (strat : ModelStrategy) (cid mu : Nat)
    (probs : List (Nat × ℚ)) (sel : List Nat) :
    ∀ (l : List CandidateLink) (st : Storage) (acc : List PredictionOut),
      (l.any (badFor cfg strat probs sel)) = true →
      (l.map (fun c => c.id)).Nodup →
      (∀ c ∈ l, (st.model_predictions.any fun r =>
          r.cycle_id == cid && r.model_user_id == mu && r.candidate_id == c.id) = false) →
      upsertLoop cfg strat cid mu probs sel l st acc =
        .error (explErrMsg cfg,
          { st with model_predictions := st.model_predictions ++
              ((l.take (l.findIdx (badFor cfg strat probs sel))).map
                (modelRow cfg strat cid mu probs sel)) }) := by
  intro l
  induction l with
  | nil => intro st acc h; simp at h
  | cons c rest ih =>
    intro st acc hany hnodup hfresh
    by_cases hb : badFor cfg strat probs sel c = true
    · have hfind : (c :: rest).findIdx (badFor cfg strat probs sel) = 0 := by
        simp [List.findIdx_cons, hb]
      rw [hfind]
      simp only [List.take_zero, List.map_nil, List.append_nil]
      simp only [upsertLoop]
      rw [show (sel.contains c.id &&
        (stripChars (strat.explain_choice cfg c (dictGet probs c.id 0)
          (sel.contains c.id)).data).isEmpty) = true from hb]
      rfl
    · have hb' : badFor cfg strat probs sel c = false := by
        simpa using hb
      have hup : Storage.upsert_model_prediction st cid mu c.id (dictGet probs c.id 0)
          (strat.explain_choice cfg c (dictGet probs c.id 0) (sel.contains c.id)) =
          { st with model_predictions :=
              st.model_predictions ++ [modelRow cfg strat cid mu probs sel c] } := by
        unfold Storage.upsert_model_prediction
        rw [if_neg]
        · rfl
        · have := hfresh c (by simp)
          simp only [Bool.not_eq_true]
          exact this
      have hcond : (sel.contains c.id &&
          (stripChars (strat.explain_choice cfg c (dictGet probs c.id 0)
            (sel.contains c.id)).data).isEmpty) = false := hb'
      have hstep : upsertLoop cfg strat cid mu probs sel (c :: rest) st acc =
          upsertLoop cfg strat cid mu probs sel rest
            ({ st with model_predictions := st.model_predictions ++
                [modelRow cfg strat cid mu probs sel c] })
            (acc ++ [{ candidate_id := c.id, probability := dictGet probs c.id 0,
                       explanation := strat.explain_choice cfg c (dictGet probs c.id 0)
                         (sel.contains c.id),
                       selected := sel.contains c.id }]) := by
        simp only [upsertLoop]
        rw [hcond]
        simp only [Bool.false_eq_true, if_false]
        rw [hup]
      rw [List.map_cons, List.nodup_cons] at hnodup
      obtain ⟨hnotmem, hnodup2⟩ := hnodup
      have hany2 : rest.any (badFor cfg strat probs sel) = true := by
        simp only [List.any_cons, hb', Bool.false_or] at hany
        exact hany
      have hfresh2 : ∀ c2 ∈ rest,
          (({ st with model_predictions := st.model_predictions ++
              [modelRow cfg strat cid mu probs sel c] } : Storage).model_predictions.any
            fun r => r.cycle_id == cid && r.model_user_id == mu &&
              r.candidate_id == c2.id) = false := by
        intro c2 hc2
        have hold := hfresh c2 (by simp [hc2])
        have hne : (c.id == c2.id) = false := by
          simp only [beq_eq_false_iff_ne, ne_eq]
          intro heq
          exact hnotmem (heq ▸ List.mem_map_of_mem (fun c => c.id) hc2)
        simp [List.any_append, hold, modelRow, hne]
      rw [hstep, ih _ _ hany2 hnodup2 hfresh2]
      rw [List.findIdx_cons]
      rw [hb']
      simp [List.take_succ_cons]

end TCMarket

namespace TCMarket

/-- Fetching or creating the agent user never touches model predictions. -/
theorem get_or_create_ai_user_model_predictions (s : Storage) (m : String) :
    (Storage.get_or_create_ai_user s m).2.model_predictions = s.model_predictions := by
  unfold Storage.get_or_create_ai_user
  dsimp only
  split <;> rfl

/-- A successful pick replacement never touches model predictions. -/
theorem set_ranked_picks_ok_model_predictions (s : Storage) (cid uid : Nat)
    (ids : List Nat) (p : List Pick) (s2 : Storage)
    (h : Storage.set_ranked_picks s cid uid ids = .ok (p, s2)) :
    s2.model_predictions = s.model_predictions := by
  unfold Storage.set_ranked_picks at h
  split at h
  · exact absurd h (by simp)
  · split at h
    · exact absurd h (by simp)
    · split at h
      · exact absurd h (by simp)
      · injection h with h1
        injection h1 with _ h2
        rw [← h2]

/-- Absence of rows for a (cycle, model) key implies absence for any
(cycle, model, candidate) key. -/
theorem any_key_extend (l : List ModelPredictionRow) (cid mu k : Nat)
    (h : (l.any fun r => r.cycle_id == cid && r.model_user_id == mu) = false) :
    (l.any fun r => r.cycle_id == cid && r.model_user_id == mu && r.candidate_id == k) = false := by
  rw [List.any_eq_false] at h ⊢
  intro r hr
  have := h r hr
  simp only [Bool.and_eq_true, not_and] at this ⊢
  intro h12
  exact absurd h12.2 (this h12.1)

end TCMarket

/-- Claim C2 (amended): a strategy returning a blank explanation for a selected
candidate makes the model pass fail entirely — neither runModelConfig nor
run_cycle can return ok — aborting rather than silently skipping the candidate;
but the failure is not all-or-nothing: when the pick write succeeds, the error
state holds exactly the prediction rows of the candidates that precede the first
offending candidate in creation order, which is zero rows only when the offending
candidate comes first. -/
theorem claim_C2 (s : Storage) (cycle_id : Nat) (cfg : ModelAgentConfig) (strat : ModelStrategy)
    (henabled : cfg.enabled = true)
    (hbad : ((Storage.list_candidates s cycle_id).any
        (badFor cfg strat (modelProbs s cycle_id cfg strat)
          (modelSelectedIds s cycle_id cfg strat))) = true)
    (hnodup : ((Storage.list_candidates s cycle_id).map (fun c => c.id)).Nodup)
    (hfresh : (s.model_predictions.any fun r =>
        r.cycle_id == cycle_id &&
          r.model_user_id == (Storage.get_or_create_ai_user s cfg.id).1.id) = false) :
    (∀ out, runModelConfig s cycle_id cfg strat ≠ .ok out) ∧
      (∀ out, ModelRunner.run_cycle s cycle_id [(cfg, strat)] ≠ .ok out) ∧
      (∀ pks s2,
        Storage.set_ranked_picks (Storage.get_or_create_ai_user s cfg.id).2 cycle_id
            (Storage.get_or_create_ai_user s cfg.id).1.id
            (modelSelectedIds s cycle_id cfg strat) = .ok (pks, s2) →
        runModelConfig s cycle_id cfg strat = .error (explErrMsg cfg,
          { s2 with model_predictions := s2.model_predictions ++
              (((Storage.list_candidates s cycle_id).take
                  ((Storage.list_candidates s cycle_id).findIdx
                    (badFor cfg strat (modelProbs s cycle_id cfg strat)
                      (modelSelectedIds s cycle_id cfg strat)))).map
                (modelRow cfg strat cycle_id (Storage.get_or_create_ai_user s cfg.id).1.id
                  (modelProbs s cycle_id cfg strat)
                  (modelSelectedIds s cycle_id cfg strat))) })) := by
  have h3 : ∀ pks s2,
      Storage.set_ranked_picks (Storage.get_or_create_ai_user s cfg.id).2 cycle_id
          (Storage.get_or_create_ai_user s cfg.id).1.id
          (modelSelectedIds s cycle_id cfg strat) = .ok (pks, s2) →
      runModelConfig s cycle_id cfg strat = .error (explErrMsg cfg,
        { s2 with model_predictions := s2.model_predictions ++
            (((Storage.list_candidates s cycle_id).take
                ((Storage.list_candidates s cycle_id).findIdx
                  (badFor cfg strat (modelProbs s cycle_id cfg strat)
                    (modelSelectedIds s cycle_id cfg strat)))).map
              (modelRow cfg strat cycle_id (Storage.get_or_create_ai_user s cfg.id).1.id
                (modelProbs s cycle_id cfg strat)
                (modelSelectedIds s cycle_id cfg strat))) }) := by
    intro pks s2 hpick
    have hs2 : s2.model_predictions = s.model_predictions := by
      rw [set_ranked_picks_ok_model_predictions _ _ _ _ _ _ hpick,
        get_or_create_ai_user_model_predictions]
    have hfresh2 : ∀ c ∈ Storage.list_candidates s cycle_id,
        (s2.model_predictions.any fun r =>
          r.cycle_id == cycle_id &&
            r.model_user_id == (Storage.get_or_create_ai_user s cfg.id).1.id &&
            r.candidate_id == c.id) = false := by
      intro c _
      rw [hs2]
      exact any_key_extend _ _ _ _ hfresh
    simp only [runModelConfig]
    rw [hpick]
    dsimp only
    rw [upsertLoop_of_bad cfg strat cycle_id (Storage.get_or_create_ai_user s cfg.id).1.id
      (modelProbs s cycle_id cfg strat) (modelSelectedIds s cycle_id cfg strat)
      (Storage.list_candidates s cycle_id) s2 [] hbad hnodup hfresh2]
  have h1 : ∀ out, runModelConfig s cycle_id cfg strat ≠ .ok out := by
    intro out hok
    cases hsp : Storage.set_ranked_picks (Storage.get_or_create_ai_user s cfg.id).2 cycle_id
        (Storage.get_or_create_ai_user s cfg.id).1.id
        (modelSelectedIds s cycle_id cfg strat) with
    | error e =>
      rw [show runModelConfig s cycle_id cfg strat =
          .error (e, (Storage.get_or_create_ai_user s cfg.id).2) by
        simp only [runModelConfig]; rw [hsp]] at hok
      exact absurd hok (by simp)
    | ok v =>
      rw [h3 v.1 v.2 (by rw [hsp])] at hok
      exact absurd hok (by simp)
  refine ⟨h1, fun out hok => ?_, h3⟩
  have hne : (Storage.list_candidates s cycle_id).isEmpty = false := by
    cases hl : Storage.list_candidates s cycle_id with
    | nil => rw [hl] at hbad; simp at hbad
    | cons a l => rfl
  rw [show ModelRunner.run_cycle s cycle_id [(cfg, strat)] =
      runConfigs cycle_id [(cfg, strat)] s [] by
    simp only [ModelRunner.run_cycle, hne]; rfl] at hok
  simp only [runConfigs, henabled, if_true] at hok
  cases hrc : runModelConfig s cycle_id cfg strat with
  | error e => rw [hrc] at hok; exact absurd hok (by simp)
  | ok v => exact h1 v hrc

namespace TCMarket

/-- Whether an Except result is a success. -/
def exceptIsOk : Except ε α → Bool
  | .ok _ => true
  | .error _ => false

/-- The storage a finished or aborted model pass leaves behind. -/
def modelRunState (r : Except (String × Storage) (List (String × ModelPassOut) × Storage)) :
    Storage :=
  match r with
  | .error e => e.2
  | .ok o => o.2

end TCMarket

/-- Claim C2 fixture: the one-user storage with two candidates (ids 2 and 3) in
cycle 1. -/
def c2Store : Storage :=
  (Storage.create_candidate
    (Storage.create_candidate oneUserStore 1 0 "https://one.example/a" "A").2
    1 0 "https://two.example/b" "B").2

/-- Claim C2 fixture: an enabled agent allowed two picks. -/
def c2Config : ModelAgentConfig :=
  { id := "bad-model", model_name := "bad", enabled := true, max_daily_picks := 2 }

/-- Claim C2 fixture: a strategy with no scores (so probabilities fall back to
uniform and both candidates are selected) whose explanation is blank exactly for
selected candidate 3 — the second candidate in creation order. -/
def c2Strategy : ModelStrategy :=
  { predict_probabilities := fun _ _ => []
    explain_choice := fun _ c _ selected => if selected && c.id == 3 then "" else "ok" }

/-- Claim C2 fixture: the aborted run of the bad strategy over cycle 1. -/
def c2Run : Except (String × Storage) (List (String × ModelPassOut) × Storage) :=
  ModelRunner.run_cycle c2Store 1 [(c2Config, c2Strategy)]

/-- Counterexample to claim C2 as stated: the strategy leaves selected candidate 3
with a blank explanation, and the run does fail entirely — but the failure state
holds one persisted model-prediction row (candidate 2's, upserted before the
raise), not zero, so the all-or-nothing half of the claim is false. -/
theorem claim_C2_counterexample :
    ((Storage.list_candidates c2Store 1).any
        (badFor c2Config c2Strategy (modelProbs c2Store 1 c2Config c2Strategy)
          (modelSelectedIds c2Store 1 c2Config c2Strategy))) = true ∧
      exceptIsOk c2Run = false ∧
      c2Store.model_predictions.length = 0 ∧
      ((modelRunState c2Run).model_predictions.filter fun r =>
        r.cycle_id == 1 && r.model_user_id == 4).length = 1 := by
  decide

/-- Witness for claim C2 at the concrete fixture, discharging the enabled,
contract-violation, distinct-ids and no-prior-rows hypotheses there. -/
theorem claim_C2_witness :
    ModelRunner.run_cycle c2Store 1 [(c2Config, c2Strategy)] ≠
      .ok ([], c2Store) :=
  (claim_C2 c2Store 1 c2Config c2Strategy (by decide) (by decide) (by decide)
    (by decide)).2.1 ([], c2Store)

namespace TCMarket

/-! General facts about the stable insertion sort and the competition-ranking
walk, used to settle the leaderboard claims. -/

/-- Inserting permutes: the sorted insert holds the same elements. -/
theorem insertLe_perm (le : α → α → Bool) (a : α) :
    ∀ l : List α, (insertLe le a l).Perm (a :: l) := by
  intro l
  induction l with
  | nil => simp [insertLe]
  | cons b rest ih =>
    by_cases h : le a b = true
    · simp [insertLe, h]
    · simp only [insertLe, h, Bool.false_eq_true, if_false]
      exact ((ih.cons b).trans (List.Perm.swap a b rest)).symm.symm

/-- Sorting permutes: the output holds exactly the input elements. -/
theorem isortBy_perm (le : α → α → Bool) :
    ∀ l : List α, (isortBy le l).Perm l := by
  intro l
  induction l with
  | nil => simp [isortBy]
  | cons a rest ih =>
    exact (insertLe_perm le a (isortBy le rest)).trans (ih.cons a)

/-- Inserting into a le-sorted list keeps it le-sorted, for a transitive total
comparison. -/
theorem insertLe_pairwise (le : α → α → Bool)
    (htrans : ∀ a b c, le a b = true → le b c = true → le a c = true)
    (htot : ∀ a b, le a b = true ∨ le b a = true) (a : α) :
    ∀ l : List α, l.Pairwise (fun x y => le x y = true) →
      (insertLe le a l).Pairwise (fun x y => le x y = true) := by
  intro l
  induction l with
  | nil => intro _; simp [insertLe]
  | cons b rest ih =>
    intro hp
    rw [List.pairwise_cons] at hp
    obtain ⟨hb, hrest⟩ := hp
    by_cases h : le a b = true
    · rw [insertLe, if_pos h, List.pairwise_cons]
      refine ⟨fun x hx => ?_, List.pairwise_cons.mpr ⟨hb, hrest⟩⟩
      rcases List.mem_cons.mp hx with rfl | hx2
      · exact h
      · exact htrans a b x h (hb x hx2)
    · rw [insertLe, if_neg h, List.pairwise_cons]
      refine ⟨fun x hx => ?_, ih hrest⟩
      have hxc : x ∈ a :: rest := (insertLe_perm le a rest).mem_iff.mp hx
      rcases List.mem_cons.mp hxc with heq | hx2
      · rw [heq]
        rcases htot a b with hab | hba
        · exact absurd hab h
        · exact hba
      · exact hb x hx2

/-- The stable sort is le-sorted for a transitive total comparison. -/
theorem isortBy_pairwise (le : α → α → Bool)
    (htrans : ∀ a b c, le a b = true → le b c = true → le a c = true)
    (htot : ∀ a b, le a b = true ∨ le b a = true) :
    ∀ l : List α, (isortBy le l).Pairwise (fun x y => le x y = true) := by
  intro l
  induction l with
  | nil => simp [isortBy]
  | cons a rest ih => exact insertLe_pairwise le htrans htot a _ ih

/-- Descending lexicographic comparison on (reward, correct) keys as a relation:
geKey a b means a's key is at least b's. -/
def geKey (a b : Int × Nat) : Prop := b.1 < a.1 ∨ (b.1 = a.1 ∧ b.2 ≤ a.2)

/-- geKey is antisymmetric. -/
theorem geKey_antisymm {a b : Int × Nat} (h1 : geKey a b) (h2 : geKey b a) : a = b := by
  obtain ⟨a1, a2⟩ := a
  obtain ⟨b1, b2⟩ := b
  simp only [geKey] at h1 h2
  simp only [Prod.mk.injEq]
  omega

/-- geKey is transitive. -/
theorem geKey_trans {a b c : Int × Nat} (h1 : geKey a b) (h2 : geKey b c) : geKey a c := by
  obtain ⟨a1, a2⟩ := a
  obtain ⟨b1, b2⟩ := b
  obtain ⟨c1, c2⟩ := c
  simp only [geKey] at h1 h2 ⊢
  omega

/-- geKey is total. -/
theorem geKey_total (a b : Int × Nat) : geKey a b ∨ geKey b a := by
  obtain ⟨a1, a2⟩ := a
  obtain ⟨b1, b2⟩ := b
  simp only [geKey]
  omega

/-- The Boolean sort predicate of settle_cycle is exactly geKey on entry keys. -/
theorem entryKeyLe_iff (a b : RankingEntry) :
    entryKeyLe a b = true ↔ geKey (entryKey a) (entryKey b) := by
  simp only [entryKeyLe, entryKey, geKey, Bool.or_eq_true, Bool.and_eq_true,
    decide_eq_true_eq, beq_iff_eq]
  constructor
  · rintro (h | ⟨h1, h2⟩)
    · exact Or.inl h
    · exact Or.inr ⟨h1.symm, h2⟩
  · rintro (h | ⟨h1, h2⟩)
    · exact Or.inl h
    · exact Or.inr ⟨h1.symm, h2⟩

/-- Transitivity, transported to the Boolean predicate. -/
theorem entryKeyLe_trans : ∀ a b c : RankingEntry, entryKeyLe a b = true →
    entryKeyLe b c = true → entryKeyLe a c = true := fun a b c h1 h2 =>
  (entryKeyLe_iff a c).mpr (geKey_trans ((entryKeyLe_iff a b).mp h1)
    ((entryKeyLe_iff b c).mp h2))

/-- Totality, transported to the Boolean predicate. -/
theorem entryKeyLe_total : ∀ a b : RankingEntry,
    entryKeyLe a b = true ∨ entryKeyLe b a = true := by
  intro a b
  rcases geKey_total (entryKey a) (entryKey b) with h | h
  · exact Or.inl ((entryKeyLe_iff a b).mpr h)
  · exact Or.inr ((entryKeyLe_iff b a).mpr h)

/-- sortEntries output is descending in geKey. -/
theorem sortEntries_sorted (l : List RankingEntry) :
    ((sortEntries l).map entryKey).Pairwise geKey := by
  rw [List.pairwise_map]
  exact (isortBy_pairwise entryKeyLe entryKeyLe_trans entryKeyLe_total l).imp
    (fun h => (entryKeyLe_iff _ _).mp h)

end TCMarket

namespace TCMarket

/-- The rank values the assignment walk produces. -/
def ranksOf (l : List RankingEntry) (idx cur : Nat) (prev : Option (Int × Nat)) : List Nat :=
  (assignRanksAux l idx cur prev).map (fun e => e.rank)

/-- One step of the assignment walk, written uniformly: the head gets idx on a
strictly new key and the carried rank otherwise, and the recursion continues with
the head's rank and key. -/
theorem assignRanksAux_cons (e : RankingEntry) (rest : List RankingEntry)
    (idx cur : Nat) (prev : Option (Int × Nat)) :
    assignRanksAux (e :: rest) idx cur prev =
      { user_id := e.user_id, correct_count := e.correct_count,
        reward_chips := e.reward_chips,
        rank := if some (entryKey e) ≠ prev then idx else cur } ::
        assignRanksAux rest (idx + 1) (if some (entryKey e) ≠ prev then idx else cur)
          (some (entryKey e)) := by
  by_cases h : some (entryKey e) ≠ prev
  · simp only [assignRanksAux, if_pos h]
  · push_neg at h
    rw [← h]
    simp [assignRanksAux]

/-- The rank list of one walk step. -/
theorem ranksOf_cons (e : RankingEntry) (rest : List RankingEntry)
    (idx cur : Nat) (prev : Option (Int × Nat)) :
    ranksOf (e :: rest) idx cur prev =
      (if some (entryKey e) ≠ prev then idx else cur) ::
        ranksOf rest (idx + 1) (if some (entryKey e) ≠ prev then idx else cur)
          (some (entryKey e)) := by
  rw [ranksOf, assignRanksAux_cons, List.map_cons, ← ranksOf]

/-- Adjacent positions of the walk: an equal key repeats the rank, a changed key
jumps to the 1-based position idx + i + 1. -/
theorem ranksOf_adjacent :
    ∀ (l : List RankingEntry) (idx cur : Nat) (prev : Option (Int × Nat)) (i : Nat),
      i + 1 < l.length →
      ((l.map entryKey).getD (i + 1) (0, 0) = (l.map entryKey).getD i (0, 0) →
        (ranksOf l idx cur prev).getD (i + 1) 0 = (ranksOf l idx cur prev).getD i 0) ∧
      ((l.map entryKey).getD (i + 1) (0, 0) ≠ (l.map entryKey).getD i (0, 0) →
        (ranksOf l idx cur prev).getD (i + 1) 0 = idx + i + 1) := by
  intro l
  induction l with
  | nil => intro idx cur prev i h; simp at h
  | cons e rest ih =>
    intro idx cur prev i h
    cases i with
    | zero =>
      cases rest with
      | nil => simp at h
      | cons e2 rest2 =>
        rw [ranksOf_cons, ranksOf_cons]
        constructor
        · intro heq
          simp only [List.map_cons, List.getD_cons_succ, List.getD_cons_zero] at heq
          simp only [List.getD_cons_succ, List.getD_cons_zero, heq]
          simp
        · intro hne
          simp only [List.map_cons, List.getD_cons_succ, List.getD_cons_zero] at hne
          simp only [List.getD_cons_succ, List.getD_cons_zero]
          rw [if_pos (by simpa using hne)]
    | succ j =>
      have h2 : j + 1 < rest.length := by
        simp only [List.length_cons] at h
        omega
      have hstep := ih (idx + 1) (if some (entryKey e) ≠ prev then idx else cur)
        (some (entryKey e)) j h2
      rw [ranksOf_cons]
      simp only [List.map_cons, List.getD_cons_succ]
      exact ⟨fun heq => (hstep.1 heq), fun hne => by rw [hstep.2 hne]; omega⟩

/-- The index of the first occurrence of an element. -/
def firstIdxOf [BEq α] (l : List α) (k : α) : Nat := l.findIdx (fun x => x == k)

/-- The first occurrence of a list head is position 0. -/
theorem firstIdxOf_cons_self [BEq α] [LawfulBEq α] (k : α) (l : List α) :
    firstIdxOf (k :: l) k = 0 := by
  simp [firstIdxOf, List.findIdx_cons]

/-- First occurrence past a prefix that misses the element. -/
theorem firstIdxOf_append_of_not_mem [BEq α] [LawfulBEq α] {k : α} :
    ∀ {l1 : List α} (l2 : List α), k ∉ l1 →
      firstIdxOf (l1 ++ l2) k = l1.length + firstIdxOf l2 k := by
  intro l1
  induction l1 with
  | nil => intro l2 _; simp
  | cons x rest ih =>
    intro l2 hmem
    have hx : (x == k) = false := by
      simp only [beq_eq_false_iff_ne, ne_eq]
      intro hxe
      exact hmem (by rw [hxe]; exact List.mem_cons_self k rest)
    have ih2 := ih l2 (fun hm => hmem (List.mem_cons_of_mem x hm))
    simp only [firstIdxOf] at ih2 ⊢
    simp only [List.cons_append, List.findIdx_cons, hx, cond_false, List.length_cons]
    omega

/-- On a list sorted descending in geKey, the walk assigns every position the
1-based index of the first occurrence of its key: ties share the first
occurrence's position and rank numbers are never renumbered to close gaps. -/
theorem assignRanks_rank_indexOf (l : List RankingEntry)
    (hsorted : (l.map entryKey).Pairwise geKey) :
    ∀ i, i < l.length →
      (ranksOf l 1 0 none).getD i 0 =
        firstIdxOf (l.map entryKey) ((l.map entryKey).getD i (0, 0)) + 1 := by
  intro i
  induction i with
  | zero =>
    intro h
    cases l with
    | nil => simp at h
    | cons e rest =>
      rw [ranksOf_cons]
      simp only [List.getD_cons_zero, List.map_cons]
      rw [if_pos (by simp), firstIdxOf_cons_self]
  | succ i ihi =>
    intro h
    have hi : i < l.length := by omega
    have hlen : (l.map entryKey).length = l.length := List.length_map l entryKey
    by_cases heq : (l.map entryKey).getD (i + 1) (0, 0) = (l.map entryKey).getD i (0, 0)
    · rw [(ranksOf_adjacent l 1 0 none i h).1 heq, ihi hi, heq]
    · rw [(ranksOf_adjacent l 1 0 none i h).2 heq]
      have hb1 : i + 1 < (l.map entryKey).length := by omega
      have hb0 : i < (l.map entryKey).length := by omega
      have hgd1 : (l.map entryKey).getD (i + 1) (0, 0) = (l.map entryKey)[i + 1] :=
        List.getD_eq_getElem (l.map entryKey) (0, 0) hb1
      have hgd0 : (l.map entryKey).getD i (0, 0) = (l.map entryKey)[i] :=
        List.getD_eq_getElem (l.map entryKey) (0, 0) hb0
      have hsort := List.pairwise_iff_getElem.mp hsorted
      have hnotmem : (l.map entryKey)[i + 1] ∉ (l.map entryKey).take (i + 1) := by
        intro hmem
        rw [List.mem_take_iff_getElem] at hmem
        obtain ⟨j, hj, hjeq⟩ := hmem
        have hjlen : j < (l.map entryKey).length := lt_of_lt_of_le hj (min_le_right _ _)
        have hji : j < i + 1 := lt_of_lt_of_le hj (min_le_left _ _)
        rcases Nat.lt_or_ge j i with hji2 | hge
        · have g1 : geKey (l.map entryKey)[j] (l.map entryKey)[i] := hsort j i hjlen hb0 hji2
          have g2 : geKey (l.map entryKey)[i] (l.map entryKey)[i + 1] :=
            hsort i (i + 1) hb0 hb1 (by omega)
          have g3 : geKey (l.map entryKey)[i] (l.map entryKey)[j] := by
            rw [hjeq]
            exact g2
          have g4 : (l.map entryKey)[j] = (l.map entryKey)[i] := geKey_antisymm g1 g3
          apply heq
          rw [hgd1, hgd0, ← hjeq, g4]
        · have hj_eq : j = i := by omega
          subst hj_eq
          apply heq
          rw [hgd1, hgd0, ← hjeq]
      have hsplit : (l.map entryKey) =
          (l.map entryKey).take (i + 1) ++
            (l.map entryKey)[i + 1] :: (l.map entryKey).drop (i + 2) := by
        conv_lhs => rw [← List.take_append_drop (i + 1) (l.map entryKey)]
        rw [List.drop_eq_getElem_cons hb1]
      have hidx : firstIdxOf (l.map entryKey) (l.map entryKey)[i + 1] = i + 1 := by
        have hsplit2 := hsplit
        have hnotmem2 := hnotmem
        set k := (l.map entryKey)[i + 1] with hk
        conv_lhs => rw [hsplit2]
        rw [firstIdxOf_append_of_not_mem _ hnotmem2, firstIdxOf_cons_self,
          List.length_take]
        omega
      rw [hgd1, hidx]
      omega

/-- The (reward, correct) key of a ranked leaderboard entry. -/
def sKey (e : SettlementEntry) : Int × Nat := (e.reward_chips, e.correct_count)

/-- The walk preserves every entry's key. -/
theorem assignRanksAux_sKeys :
    ∀ (l : List RankingEntry) (idx cur : Nat) (prev : Option (Int × Nat)),
      (assignRanksAux l idx cur prev).map sKey = l.map entryKey := by
  intro l
  induction l with
  | nil => intro idx cur prev; rfl
  | cons e rest ih =>
    intro idx cur prev
    rw [assignRanksAux_cons, List.map_cons, List.map_cons, ih]
    rfl

/-- The walk preserves length. -/
theorem assignRanksAux_length :
    ∀ (l : List RankingEntry) (idx cur : Nat) (prev : Option (Int × Nat)),
      (assignRanksAux l idx cur prev).length = l.length := by
  intro l
  induction l with
  | nil => intro idx cur prev; rfl
  | cons e rest ih =>
    intro idx cur prev
    rw [assignRanksAux_cons, List.length_cons, List.length_cons, ih]

end TCMarket

/-- Claim C5 fixture: reward/correct pairs (20,1), (20,1), (10,1) for users 10,
11, 12. -/
def c5Entries : List RankingEntry :=
  [{ user_id := 10, correct_count := 1, reward_chips := 20 },
   { user_id := 11, correct_count := 1, reward_chips := 20 },
   { user_id := 12, correct_count := 1, reward_chips := 10 }]

/-- Claim C5: the settlement leaderboard is the entries sorted descending by the
(reward_chips, correct_count) pair with standard competition ranking: every
position's rank is the 1-based position of the first occurrence of its pair, so
tied pairs share that rank and rank numbers are not renumbered to close gaps; on
pairs (20,1), (20,1), (10,1) the ranks are 1, 1, 3. -/
theorem claim_C5 :
    (∀ (s : Storage) (cycle_id : Nat) (winner_urls : List String) (now : Int),
        (MarketService.settle_cycle s cycle_id winner_urls now).1.ranking =
          assignRanks (sortEntries (settleEntries s cycle_id
            (winnerIdsOf s cycle_id winner_urls)))) ∧
      (∀ (l : List RankingEntry),
        ((assignRanks (sortEntries l)).map sKey).Pairwise geKey ∧
          (∀ i, i < (assignRanks (sortEntries l)).length →
            ((assignRanks (sortEntries l)).map (fun e => e.rank)).getD i 0 =
              firstIdxOf ((assignRanks (sortEntries l)).map sKey)
                (((assignRanks (sortEntries l)).map sKey).getD i (0, 0)) + 1)) ∧
      ((assignRanks (sortEntries c5Entries)).map (fun e => e.rank) = [1, 1, 3]) := by
  refine ⟨fun s cycle_id winner_urls now => rfl, fun l => ?_, by decide⟩
  have hkeys : (assignRanks (sortEntries l)).map sKey = (sortEntries l).map entryKey :=
    assignRanksAux_sKeys (sortEntries l) 1 0 none
  constructor
  · rw [hkeys]
    exact sortEntries_sorted l
  · intro i hlen
    rw [hkeys]
    have hlen2 : i < (sortEntries l).length := by
      rw [assignRanks, assignRanksAux_length] at hlen
      exact hlen
    exact assignRanks_rank_indexOf (sortEntries l) (sortEntries_sorted l) i hlen2

/-- Witness for claim C5: the rank-is-first-index property instantiated at the
third position of the concrete (20,1), (20,1), (10,1) leaderboard. -/
theorem claim_C5_witness :
    ((assignRanks (sortEntries c5Entries)).map (fun e => e.rank)).getD 2 0 =
      firstIdxOf ((assignRanks (sortEntries c5Entries)).map sKey)
        (((assignRanks (sortEntries c5Entries)).map sKey).getD 2 (0, 0)) + 1 :=
  (claim_C5.2.1 c5Entries).2 2 (by decide)

namespace TCMarket

/-- The total rank weight the picks contribute to one candidate (specification
form of the accumulation loop). -/
def weightSum (picks : List Pick) (c : Nat) : Nat :=
  ((picks.filter (fun p => p.candidate_id == c)).map (fun p => rankWeight p.rank)).sum

/-- The rank weight table is 11 minus the rank on 1..10 and 1 elsewhere. -/
theorem rankWeight_eq (r : Nat) :
    rankWeight r = if 1 ≤ r ∧ r ≤ 10 then 11 - r else 1 := by
  rcases r with _ | _ | _ | _ | _ | _ | _ | _ | _ | _ | _ | n <;> rfl

/-- Bumping a key adds its weight to that key and leaves other keys unchanged. -/
theorem dictGet_dictBump (ws : List (Nat × Nat)) (k w c : Nat) :
    dictGet (dictBump ws k w) c 0 = dictGet ws c 0 + (if k = c then w else 0) := by
  by_cases hhas : dictHas ws k = true
  · rw [dictBump, if_pos hhas]
    rw [dictGet, List.find?_map]
    have hpred : ((fun kv : Nat × Nat => kv.1 == c) ∘
        (fun kv : Nat × Nat => if kv.1 == k then (kv.1, kv.2 + w) else kv)) =
        fun kv : Nat × Nat => kv.1 == c := by
      funext kv
      by_cases hk : kv.1 = k <;> simp [hk]
    rw [hpred]
    cases hf : ws.find? (fun kv => kv.1 == c) with
    | none =>
      rw [Option.map_none']
      rw [dictGet, hf]
      by_cases hkc : k = c
      · exfalso
        subst hkc
        rw [dictHas, List.any_eq_true] at hhas
        obtain ⟨kv, hkv, hkvk⟩ := hhas
        exact absurd hkvk (by simpa using (List.find?_eq_none.mp hf kv hkv))
      · simp [hkc]
    | some kv =>
      rw [Option.map_some']
      rw [dictGet, hf]
      have hkvc : kv.1 = c := by
        have := List.find?_some hf
        simpa using this
      by_cases hkc : k = c
      · subst hkc
        rw [if_pos (by simpa using hkvc)]
        simp
      · rw [if_neg (by simp [hkvc, Ne.symm hkc]), if_neg hkc]
        simp
  · rw [dictBump, if_neg hhas]
    rw [dictGet, List.find?_append]
    cases hf : ws.find? (fun kv => kv.1 == c) with
    | none =>
      simp only [Option.or]
      rw [dictGet, hf]
      by_cases hkc : k = c
      · subst hkc
        simp [List.find?_cons]
      · simp [List.find?_cons, Ne.symm hkc, hkc]
    | some kv =>
      simp only [Option.or]
      rw [dictGet, hf]
      have hkvc : kv.1 = c := by
        have := List.find?_some hf
        simpa using this
      by_cases hkc : k = c
      · exfalso
        subst hkc
        have hhas2 : (ws.any fun kv => kv.1 == k) = false := by
          rw [dictHas] at hhas
          exact Bool.eq_false_iff.mpr hhas
        exact (List.any_eq_false.mp hhas2) kv (List.mem_of_find?_eq_some hf)
          (by simp [hkvc])
      · simp [hkc]

end TCMarket

namespace TCMarket

/-- One pick contributes its weight exactly to its candidate. -/
theorem weightSum_cons (p : Pick) (rest : List Pick) (c : Nat) :
    weightSum (p :: rest) c =
      (if p.candidate_id = c then rankWeight p.rank else 0) + weightSum rest c := by
  rw [weightSum, List.filter_cons]
  by_cases h : p.candidate_id = c
  · simp [h, weightSum]
  · simp [h, weightSum]

/-- The accumulation loop computes weightSum, from any starting dict. -/
theorem foldl_bump_get :
    ∀ (picks : List Pick) (ws : List (Nat × Nat)) (c : Nat),
      dictGet (picks.foldl (fun ws p => dictBump ws p.candidate_id (rankWeight p.rank)) ws) c 0 =
        dictGet ws c 0 + weightSum picks c := by
  intro picks
  induction picks with
  | nil => intro ws c; simp [weightSum]
  | cons p rest ih =>
    intro ws c
    rw [List.foldl_cons, ih, dictGet_dictBump, weightSum_cons]
    omega

/-- The weight dict agrees with weightSum on every candidate. -/
theorem pickWeights_get (picks : List Pick) (c : Nat) :
    dictGet (pickWeights picks) c 0 = weightSum picks c := by
  rw [pickWeights, foldl_bump_get]
  simp [dictGet]

/-- Updating the one matching entry of a duplicate-free dict adds w to the value
sum. -/
theorem mapBump_values_sum (k w : Nat) :
    ∀ ws : List (Nat × Nat), (ws.map Prod.fst).Nodup → dictHas ws k = true →
      ((ws.map (fun kv => if kv.1 == k then (kv.1, kv.2 + w) else kv)).map Prod.snd).sum =
        (ws.map Prod.snd).sum + w := by
  intro ws
  induction ws with
  | nil => intro _ h; simp [dictHas] at h
  | cons x rest ih =>
    intro hnodup hhas
    rw [List.map_cons, List.nodup_cons] at hnodup
    obtain ⟨hxmem, hrest⟩ := hnodup
    by_cases hxk : x.1 = k
    · have hxk2 : (x.1 == k) = true := by simpa using hxk
      have hconst : ∀ kv ∈ rest, (if kv.1 == k then (kv.1, kv.2 + w) else kv) = kv := by
        intro kv hkv
        rw [if_neg]
        intro hb
        have hkvk : kv.1 = k := by simpa using hb
        exact hxmem (by
          rw [hxk, ← hkvk]
          exact List.mem_map_of_mem Prod.fst hkv)
      have hmap : rest.map (fun kv => if kv.1 == k then (kv.1, kv.2 + w) else kv) = rest := by
        conv_rhs => rw [← List.map_id rest]
        exact List.map_congr_left hconst
      rw [List.map_cons, hxk2]
      simp only [if_true]
      rw [hmap]
      simp only [List.map_cons, List.sum_cons]
      omega
    · have hxk2 : (x.1 == k) = false := by simpa using hxk
      have hhas2 : dictHas rest k = true := by
        simpa [dictHas, List.any_cons, hxk2] using hhas
      rw [List.map_cons, hxk2]
      simp only [Bool.false_eq_true, if_false]
      simp only [List.map_cons, List.sum_cons]
      rw [ih hrest hhas2]
      omega

/-- A bump adds exactly its weight to the total of a duplicate-free dict. -/
theorem dictBump_values_sum (ws : List (Nat × Nat)) (k w : Nat)
    (hnodup : (ws.map Prod.fst).Nodup) :
    ((dictBump ws k w).map Prod.snd).sum = (ws.map Prod.snd).sum + w := by
  by_cases hhas : dictHas ws k = true
  · rw [dictBump, if_pos hhas]
    exact mapBump_values_sum k w ws hnodup hhas
  · rw [dictBump, if_neg hhas]
    simp

/-- A bump keeps dict keys duplicate-free. -/
theorem dictBump_keys_nodup (ws : List (Nat × Nat)) (k w : Nat)
    (hnodup : (ws.map Prod.fst).Nodup) :
    ((dictBump ws k w).map Prod.fst).Nodup := by
  by_cases hhas : dictHas ws k = true
  · rw [dictBump, if_pos hhas]
    have hkeys : (ws.map (fun kv => if kv.1 == k then (kv.1, kv.2 + w) else kv)).map Prod.fst =
        ws.map Prod.fst := by
      rw [List.map_map]
      apply List.map_congr_left
      intro kv _
      by_cases hk : kv.1 = k <;> simp [hk]
    rw [hkeys]
    exact hnodup
  · rw [dictBump, if_neg hhas]
    rw [List.map_append]
    have hnotmem : k ∉ ws.map Prod.fst := by
      intro hmem
      apply hhas
      rw [dictHas, List.any_eq_true]
      obtain ⟨kv, hkv, hkvk⟩ := List.mem_map.mp hmem
      exact ⟨kv, hkv, by simp [hkvk]⟩
    simp only [List.map_cons, List.map_nil]
    rw [List.nodup_append]
    exact ⟨hnodup, List.nodup_singleton k, by simpa using hnotmem⟩

end TCMarket

namespace TCMarket

/-- The weight dict has duplicate-free keys, and its value total is the summed
rank weight over all picks. -/
theorem pickWeights_nodup_and_sum (picks : List Pick) :
    ((pickWeights picks).map Prod.fst).Nodup ∧
      ((pickWeights picks).map Prod.snd).sum =
        (picks.map (fun p => rankWeight p.rank)).sum := by
  rw [pickWeights]
  have hgen : ∀ (l : List Pick) (ws : List (Nat × Nat)), (ws.map Prod.fst).Nodup →
      ((l.foldl (fun ws p => dictBump ws p.candidate_id (rankWeight p.rank)) ws).map
        Prod.fst).Nodup ∧
      ((l.foldl (fun ws p => dictBump ws p.candidate_id (rankWeight p.rank)) ws).map
        Prod.snd).sum = (ws.map Prod.snd).sum + (l.map (fun p => rankWeight p.rank)).sum := by
    intro l
    induction l with
    | nil => intro ws h; exact ⟨h, by simp⟩
    | cons p rest ih =>
      intro ws h
      rw [List.foldl_cons]
      have hstep := dictBump_keys_nodup ws p.candidate_id (rankWeight p.rank) h
      have hsum := dictBump_values_sum ws p.candidate_id (rankWeight p.rank) h
      obtain ⟨ih1, ih2⟩ := ih _ hstep
      refine ⟨ih1, ?_⟩
      rw [ih2, hsum, List.map_cons, List.sum_cons]
      omega
  obtain ⟨h1, h2⟩ := hgen picks [] (by simp)
  exact ⟨h1, by rw [h2]; simp⟩

/-- A key outside the candidate list contributes nothing. -/
theorem sum_ite_zero_of_not_mem (k : Nat) (w : Nat) :
    ∀ cands : List CandidateLink, k ∉ cands.map (fun c => c.id) →
      ((cands.map (fun c => if k = c.id then w else 0)).sum = 0) := by
  intro cands
  induction cands with
  | nil => intro _; rfl
  | cons c rest ih =>
    intro hmem
    rw [List.map_cons, List.sum_cons, if_neg (by
      intro he
      exact hmem (by rw [List.map_cons, he]; exact List.mem_cons_self _ _)), ih (by
      intro hm
      exact hmem (by rw [List.map_cons]; exact List.mem_cons_of_mem _ hm))]

/-- A key occurring once in the candidate list contributes exactly w. -/
theorem sum_ite_of_mem (k : Nat) (w : Nat) :
    ∀ cands : List CandidateLink, (cands.map (fun c => c.id)).Nodup →
      k ∈ cands.map (fun c => c.id) →
      ((cands.map (fun c => if k = c.id then w else 0)).sum = w) := by
  intro cands
  induction cands with
  | nil => intro _ h; simp at h
  | cons c rest ih =>
    intro hnodup hmem
    rw [List.map_cons, List.nodup_cons] at hnodup
    obtain ⟨hcmem, hrest⟩ := hnodup
    by_cases hk : k = c.id
    · rw [List.map_cons, List.sum_cons, if_pos hk,
        sum_ite_zero_of_not_mem k w rest (by rw [← hk] at hcmem; exact hcmem)]
      omega
    · have hmem2 : k ∈ rest.map (fun c => c.id) := by
        rw [List.map_cons] at hmem
        rcases List.mem_cons.mp hmem with he | hm
        · exact absurd he hk
        · exact hm
      rw [List.map_cons, List.sum_cons, if_neg hk, ih hrest hmem2]
      omega

/-- Sums of pointwise additions split. -/
theorem list_sum_map_add (cands : List CandidateLink) (f g : CandidateLink → Nat) :
    (cands.map (fun c => f c + g c)).sum = (cands.map f).sum + (cands.map g).sum := by
  induction cands with
  | nil => rfl
  | cons c rest ih =>
    simp only [List.map_cons, List.sum_cons]
    rw [ih]
    omega

/-- Summing the per-candidate weights over all candidates gives the summed rank
weight over all picks, when every pick targets a distinct-id candidate. -/
theorem sum_weightSum (cands : List CandidateLink) :
    ∀ picks : List Pick,
      (∀ p ∈ picks, p.candidate_id ∈ cands.map (fun c => c.id)) →
      (cands.map (fun c => c.id)).Nodup →
      ((cands.map (fun c => weightSum picks c.id)).sum =
        (picks.map (fun p => rankWeight p.rank)).sum) := by
  intro picks
  induction picks with
  | nil =>
    intro _ _
    have : cands.map (fun c => weightSum [] c.id) = cands.map (fun _ => 0) := by
      apply List.map_congr_left
      intro c _
      simp [weightSum]
    rw [this]
    simp
  | cons p rest ih =>
    intro hmem hnodup
    have hsplit : cands.map (fun c => weightSum (p :: rest) c.id) =
        cands.map (fun c =>
          (if p.candidate_id = c.id then rankWeight p.rank else 0) + weightSum rest c.id) := by
      apply List.map_congr_left
      intro c _
      rw [weightSum_cons]
    rw [hsplit]
    rw [list_sum_map_add cands
        (fun c => if p.candidate_id = c.id then rankWeight p.rank else 0)
        (fun c => weightSum rest c.id),
      sum_ite_of_mem p.candidate_id (rankWeight p.rank) cands hnodup
        (hmem p (List.mem_cons_self p rest)),
      ih (fun q hq => hmem q (List.mem_cons_of_mem p hq)) hnodup,
      List.map_cons, List.sum_cons]

end TCMarket

namespace TCMarket

/-- Division by a constant distributes over a list sum. -/
theorem sum_map_div (l : List CandidateLink) (f : CandidateLink → ℚ) (d : ℚ) :
    (l.map (fun c => f c / d)).sum = (l.map f).sum / d := by
  induction l with
  | nil => simp
  | cons c rest ih =>
    simp only [List.map_cons, List.sum_cons]
    rw [ih, div_add_div_same]

/-- With positive total weight, the market probabilities over all candidates sum
to exactly 1. -/
theorem marketRow_sum (s : Storage) (cycle_id : Nat)
    (hmem : ∀ p ∈ Storage.list_picks s cycle_id,
      p.candidate_id ∈ (Storage.list_candidates s cycle_id).map (fun c => c.id))
    (hnodup : ((Storage.list_candidates s cycle_id).map (fun c => c.id)).Nodup)
    (htot : 0 < marketTotalWeight s cycle_id) :
    ((MarketService.compute_market_probabilities s cycle_id).map
      (fun r => r.market_probability)).sum = 1 := by
  have hperm := isortBy_perm
    (fun a b : MarketRow => decide (b.market_probability ≤ a.market_probability))
    ((Storage.list_candidates s cycle_id).map fun c =>
      ({ candidate_id := c.id, url := c.original_url, domain := c.domain,
         rank_weight_score := dictGet (marketWeights s cycle_id) c.id 0,
         market_probability :=
           if 0 < marketTotalWeight s cycle_id then
             mkRat ((dictGet (marketWeights s cycle_id) c.id 0 : Nat) : Int)
               (marketTotalWeight s cycle_id)
           else 0 } : MarketRow))
  rw [show MarketService.compute_market_probabilities s cycle_id =
      isortBy (fun a b : MarketRow => decide (b.market_probability ≤ a.market_probability))
        ((Storage.list_candidates s cycle_id).map fun c =>
          ({ candidate_id := c.id, url := c.original_url, domain := c.domain,
             rank_weight_score := dictGet (marketWeights s cycle_id) c.id 0,
             market_probability :=
               if 0 < marketTotalWeight s cycle_id then
                 mkRat ((dictGet (marketWeights s cycle_id) c.id 0 : Nat) : Int)
                 (marketTotalWeight s cycle_id)
               else 0 } : MarketRow)) from rfl]
  rw [(hperm.map (fun r => r.market_probability)).sum_eq]
  rw [List.map_map]
  have hrw : ((Storage.list_candidates s cycle_id).map
      ((fun r : MarketRow => r.market_probability) ∘ fun c =>
        ({ candidate_id := c.id, url := c.original_url, domain := c.domain,
           rank_weight_score := dictGet (marketWeights s cycle_id) c.id 0,
           market_probability :=
             if 0 < marketTotalWeight s cycle_id then
               mkRat ((dictGet (marketWeights s cycle_id) c.id 0 : Nat) : Int)
                 (marketTotalWeight s cycle_id)
             else 0 } : MarketRow))) =
      (Storage.list_candidates s cycle_id).map (fun c =>
        ((weightSum (Storage.list_picks s cycle_id) c.id : ℚ)) /
          ((marketTotalWeight s cycle_id : ℚ))) := by
    apply List.map_congr_left
    intro c _
    simp only [Function.comp]
    rw [if_pos htot,
      show marketWeights s cycle_id = pickWeights (Storage.list_picks s cycle_id) from rfl,
      pickWeights_get, Rat.mkRat_eq_div]
    push_cast
    rfl
  rw [hrw, sum_map_div]
  have hcast : ((Storage.list_candidates s cycle_id).map (fun c =>
      ((weightSum (Storage.list_picks s cycle_id) c.id : ℚ)))).sum =
      (((Storage.list_candidates s cycle_id).map (fun c =>
        weightSum (Storage.list_picks s cycle_id) c.id)).sum : ℚ) := by
    rw [Nat.cast_list_sum, List.map_map]
    rfl
  rw [hcast, sum_weightSum _ _ hmem hnodup,
    ← (pickWeights_nodup_and_sum (Storage.list_picks s cycle_id)).2]
  rw [show ((pickWeights (Storage.list_picks s cycle_id)).map Prod.snd).sum =
    marketTotalWeight s cycle_id from rfl]
  exact div_self (by
    rw [Nat.cast_ne_zero]
    omega)

end TCMarket

namespace TCMarket

/-- With zero total weight, every market probability is zero. -/
theorem marketRow_zero (s : Storage) (cycle_id : Nat)
    (h0 : marketTotalWeight s cycle_id = 0) :
    ∀ row ∈ MarketService.compute_market_probabilities s cycle_id,
      row.market_probability = 0 := by
  intro row hrow
  have hmem : row ∈ (Storage.list_candidates s cycle_id).map fun c =>
      ({ candidate_id := c.id, url := c.original_url, domain := c.domain,
         rank_weight_score := dictGet (marketWeights s cycle_id) c.id 0,
         market_probability :=
           if 0 < marketTotalWeight s cycle_id then
             mkRat ((dictGet (marketWeights s cycle_id) c.id 0 : Nat) : Int)
               (marketTotalWeight s cycle_id)
           else 0 } : MarketRow) :=
    (isortBy_perm _ _).mem_iff.mp hrow
  obtain ⟨c, _, hc⟩ := List.mem_map.mp hmem
  rw [← hc]
  simp only [if_neg (by omega : ¬ 0 < marketTotalWeight s cycle_id)]

end TCMarket


/-- Claim C7: compute_market_probabilities weights each pick 11 minus its rank on
ranks 1..10 and 1 otherwise, normalizes by the total pick weight, and over all
candidates (zero-weight ones included) the probabilities sum to exactly 1
whenever the total weight is positive and are all 0 when it is zero. -/
theorem claim_C7 (s : Storage) (cycle_id : Nat)
    (hmem : ∀ p ∈ Storage.list_picks s cycle_id,
      p.candidate_id ∈ (Storage.list_candidates s cycle_id).map (fun c => c.id))
    (hnodup : ((Storage.list_candidates s cycle_id).map (fun c => c.id)).Nodup) :
    (∀ r : Nat, rankWeight r = if 1 ≤ r ∧ r ≤ 10 then 11 - r else 1) ∧
      (0 < marketTotalWeight s cycle_id →
        ((MarketService.compute_market_probabilities s cycle_id).map
          (fun r => r.market_probability)).sum = 1) ∧
      (marketTotalWeight s cycle_id = 0 →
        ∀ row ∈ MarketService.compute_market_probabilities s cycle_id,
          row.market_probability = 0) :=
  ⟨rankWeight_eq, marketRow_sum s cycle_id hmem hnodup, marketRow_zero s cycle_id⟩

/-- Witness for claim C7 on the two-pick fixture (total weight 20): the
probabilities sum to 1. -/
theorem claim_C7_witness :
    ((MarketService.compute_market_probabilities c1Store 3).map
      (fun r => r.market_probability)).sum = 1 :=
  (claim_C7 c1Store 3 (by decide) (by decide)).2.1 (by decide)

namespace TCMarket

/-- The chip-mutating operations of the system. -/
inductive ChipOp where
  | createUser (display_name email account_type : String) (created_date : Int)
  | creditChips (user_id : Nat) (chips_delta : Int) (event_type : String) (cycle_id : Option Nat)
  | dailyFaucet (as_of : Int)
  | curationRewards (cycle_id : Nat)
  | settle (cycle_id : Nat) (winner_urls : List String) (now : Int)

/-- Apply one chip-mutating operation (a failed create_user on a duplicate email
rolls back to the unchanged state). -/
def applyChipOp (s : Storage) : ChipOp → Storage
  | .createUser n e a d =>
    match Storage.create_user s n e a d with
    | none => s
    | some us => us.2
  | .creditChips u δ et cid => Storage.credit_user_chips s u δ et cid
  | .dailyFaucet d => (Storage.apply_daily_faucet s d).2
  | .curationRewards cid => (Storage.apply_curation_rewards s cid).2
  | .settle cid urls now => (MarketService.settle_cycle s cid urls now).2

/-- Apply a sequence of chip-mutating operations. -/
def applyChipOps (s : Storage) (ops : List ChipOp) : Storage :=
  ops.foldl applyChipOp s

/-- The ledger invariant: every user's balance is the sum of that user's ledger
deltas. -/
def ledger_balanced (s : Storage) : Prop :=
  ∀ u ∈ s.users,
    u.current_chips =
      ((s.chip_ledger.filter (fun e => e.user_id == u.id)).map (fun e => e.chips_delta)).sum

/-- The inductive invariant: balance, plus freshness of the id counter over
ledger rows and user rows. -/
def chipInv (s : Storage) : Prop :=
  ledger_balanced s ∧ (∀ e ∈ s.chip_ledger, e.user_id < s.fresh) ∧
    (∀ u ∈ s.users, u.id < s.fresh)

/-- Appending one ledger entry adds its delta to exactly its user's sum. -/
theorem ledger_filter_append (l : List LedgerEntry) (e : LedgerEntry) (uid : Nat) :
    (((l ++ [e]).filter (fun x => x.user_id == uid)).map (fun x => x.chips_delta)).sum =
      ((l.filter (fun x => x.user_id == uid)).map (fun x => x.chips_delta)).sum +
        (if e.user_id = uid then e.chips_delta else 0) := by
  rw [List.filter_append]
  by_cases h : e.user_id = uid
  · simp [h]
  · simp [h]

/-- The shared ledger-paired balance step: add delta to the users matching uid
through any id-preserving updater and append the paired entry. -/
theorem balanced_ledger_step (s : Storage) (uid : Nat) (δ : Int) (et : String)
    (cid : Option Nat) (g : UserRec → UserRec)
    (hgid : ∀ u, (g u).id = u.id)
    (hgchips : ∀ u, (g u).current_chips = u.current_chips + δ)
    (h : ledger_balanced s) :
    ledger_balanced { s with
      users := s.users.map (fun u => if u.id == uid then g u else u)
      chip_ledger := s.chip_ledger ++
        [{ user_id := uid, cycle_id := cid, event_type := et, chips_delta := δ }] } := by
  intro u hu
  simp only [List.mem_map] at hu
  obtain ⟨u0, hu0, hueq⟩ := hu
  have hsum := h u0 hu0
  by_cases hid : u0.id = uid
  · rw [if_pos (by simpa using hid)] at hueq
    rw [← hueq, hgchips, hgid, ledger_filter_append, hsum, hid]
    simp
  · rw [if_neg (by simpa using hid)] at hueq
    rw [← hueq, ledger_filter_append, if_neg (fun he => hid he.symm), hsum]
    omega

/-- A delta-zero ledger entry changes no sum. -/
theorem balanced_zero_entry (s : Storage) (uid : Nat) (et : String) (cid : Option Nat)
    (h : ledger_balanced s) :
    ledger_balanced { s with
      chip_ledger := s.chip_ledger ++
        [{ user_id := uid, cycle_id := cid, event_type := et, chips_delta := 0 }] } := by
  intro u hu
  rw [ledger_filter_append]
  have := h u hu
  by_cases hid : uid = u.id <;> simp [hid, this]

/-- credit_user_chips preserves the balance invariant. -/
theorem credit_user_chips_balanced (s : Storage) (uid : Nat) (δ : Int) (et : String)
    (cid : Option Nat) (h : ledger_balanced s) :
    ledger_balanced (Storage.credit_user_chips s uid δ et cid) := by
  unfold Storage.credit_user_chips
  by_cases hex : s.users.any (fun u => u.id == uid) = true
  · rw [if_pos hex]
    by_cases hδ : δ ≠ 0
    · rw [if_pos hδ]
      exact balanced_ledger_step s uid δ et cid _ (fun u => rfl) (fun u => rfl) h
    · rw [if_neg hδ]
      push_neg at hδ
      subst hδ
      exact balanced_zero_entry s uid et cid h
  · rw [if_neg hex]
    exact h

end TCMarket

namespace TCMarket

/-- Ledger entries whose user id is below a bound contribute nothing to that
bound's per-user sum. -/
theorem ledger_sum_fresh_zero (l : List LedgerEntry) (n : Nat)
    (h : ∀ e ∈ l, e.user_id < n) :
    ((l.filter (fun e => e.user_id == n)).map (fun e => e.chips_delta)).sum = 0 := by
  induction l with
  | nil => rfl
  | cons e l ih =>
    have hne : (e.user_id == n) = false := by
      have := h e (by simp)
      simp
      omega
    have hstep : (e :: l).filter (fun x => x.user_id == n) =
        l.filter (fun x => x.user_id == n) := by
      simp [List.filter_cons, hne]
    rw [hstep]
    exact ih (fun x hx => h x (by simp [hx]))

/-- credit_user_chips preserves the full inductive invariant. -/
theorem credit_user_chips_chipInv (s : Storage) (uid : Nat) (δ : Int) (et : String)
    (cid : Option Nat) (h : chipInv s) :
    chipInv (Storage.credit_user_chips s uid δ et cid) := by
  obtain ⟨hb, hl, hu⟩ := h
  refine ⟨credit_user_chips_balanced s uid δ et cid hb, ?_, ?_⟩
  · unfold Storage.credit_user_chips
    by_cases hex : s.users.any (fun u => u.id == uid) = true
    · rw [if_pos hex]
      obtain ⟨w, hw, hwid⟩ := List.any_eq_true.mp hex
      rw [beq_iff_eq] at hwid
      intro e he
      dsimp only at he ⊢
      rcases List.mem_append.mp he with h1 | h1
      · exact hl e h1
      · rw [List.mem_singleton] at h1
        subst h1
        exact hwid ▸ hu w hw
    · rw [if_neg hex]
      exact hl
  · unfold Storage.credit_user_chips
    by_cases hex : s.users.any (fun u => u.id == uid) = true
    · rw [if_pos hex]
      intro u hup
      dsimp only at hup ⊢
      by_cases hδ : δ ≠ 0
      · rw [if_pos hδ] at hup
        obtain ⟨u0, hu0, hueq⟩ := List.mem_map.mp hup
        have hid : u.id = u0.id := by
          rw [← hueq]
          split <;> rfl
        rw [hid]
        exact hu u0 hu0
      · rw [if_neg hδ] at hup
        exact hu u hup
    · rw [if_neg hex]
      exact hu

/-- insert_user preserves the invariant: the new user starts at STARTING_CHIPS
with the paired signup_bonus entry, and no earlier ledger row carries the fresh
id. -/
theorem insert_user_chipInv (s : Storage) (n e a : String) (d : Int) (h : chipInv s) :
    chipInv (Storage.insert_user s n e a d).2 := by
  obtain ⟨hb, hl, hu⟩ := h
  unfold Storage.insert_user
  dsimp only
  refine ⟨?_, ?_, ?_⟩
  · intro u hup
    rcases List.mem_append.mp hup with h1 | h1
    · rw [ledger_filter_append]
      have hid : u.id < s.fresh := hu u h1
      rw [if_neg (by dsimp only; omega)]
      simpa using hb u h1
    · rw [List.mem_singleton] at h1
      subst h1
      dsimp only
      rw [ledger_filter_append, ledger_sum_fresh_zero s.chip_ledger s.fresh hl, if_pos rfl]
      simp
  · intro x hx
    rcases List.mem_append.mp hx with h1 | h1
    · have := hl x h1
      dsimp only
      omega
    · rw [List.mem_singleton] at h1
      subst h1
      dsimp only
      omega
  · intro x hx
    rcases List.mem_append.mp hx with h1 | h1
    · have := hu x h1
      dsimp only
      omega
    · rw [List.mem_singleton] at h1
      subst h1
      dsimp only
      omega

/-- One faucet step leaves the id counter unchanged. -/
theorem faucetStep_fresh (as_of : Int) (acc : List (Nat × Int) × Storage) (row : UserRec) :
    (Storage.faucetStep as_of acc row).2.fresh = acc.2.fresh := by
  unfold Storage.faucetStep
  dsimp only
  split <;> rfl

/-- One faucet step preserves the invariant (the credited row id is below the
counter because it comes from the user snapshot). -/
theorem faucetStep_chipInv (as_of : Int) (acc : List (Nat × Int) × Storage) (row : UserRec)
    (h : chipInv acc.2) (hrow : row.id < acc.2.fresh) :
    chipInv (Storage.faucetStep as_of acc row).2 := by
  obtain ⟨hb, hl, hu⟩ := h
  unfold Storage.faucetStep
  dsimp only
  split
  · exact ⟨hb, hl, hu⟩
  · refine ⟨?_, ?_, ?_⟩
    · exact balanced_ledger_step acc.2 row.id ((as_of - row.last_daily_credit_date) * DAILY_CHIPS)
        "daily_faucet" none
        (fun u => { u with
          current_chips := u.current_chips + (as_of - row.last_daily_credit_date) * DAILY_CHIPS
          last_daily_credit_date := as_of })
        (fun u => rfl) (fun u => rfl) hb
    · intro e he
      dsimp only at he ⊢
      rcases List.mem_append.mp he with h1 | h1
      · exact hl e h1
      · rw [List.mem_singleton] at h1
        subst h1
        exact hrow
    · intro u hup
      dsimp only at hup ⊢
      obtain ⟨u0, hu0, hueq⟩ := List.mem_map.mp hup
      have hid : u.id = u0.id := by
        rw [← hueq]
        split <;> rfl
      rw [hid]
      exact hu u0 hu0

/-- Folding faucet steps over any user snapshot preserves the invariant. -/
theorem faucet_fold_chipInv (as_of : Int) :
    ∀ (rows : List UserRec) (acc : List (Nat × Int) × Storage),
      chipInv acc.2 → (∀ r ∈ rows, r.id < acc.2.fresh) →
      chipInv ((rows.foldl (Storage.faucetStep as_of) acc).2) := by
  intro rows
  induction rows with
  | nil =>
    intro acc h _
    exact h
  | cons r rs ih =>
    intro acc h hr
    rw [List.foldl_cons]
    refine ih (Storage.faucetStep as_of acc r) (faucetStep_chipInv as_of acc r h (hr r (by simp))) ?_
    intro x hx
    rw [faucetStep_fresh]
    exact hr x (by simp [hx])

/-- apply_daily_faucet preserves the invariant. -/
theorem apply_daily_faucet_chipInv (s : Storage) (as_of : Int) (h : chipInv s) :
    chipInv (Storage.apply_daily_faucet s as_of).2 :=
  faucet_fold_chipInv as_of s.users ([], s) h h.2.2

/-- Folding the curation credit step over reward rows preserves the invariant
(inserting a curation_rewards row touches neither balances nor the ledger). -/
theorem curation_fold_chipInv (cid : Nat) :
    ∀ (rows : List CurationRow) (st : Storage), chipInv st →
      chipInv (rows.foldl (fun st row =>
        Storage.credit_user_chips
          { st with curation_rewards := st.curation_rewards ++ [(cid, row)] }
          row.user_id (row.reward_chips : Int) "curation_reward" (some cid)) st) := by
  intro rows
  induction rows with
  | nil =>
    intro st h
    exact h
  | cons r rs ih =>
    intro st h
    rw [List.foldl_cons]
    apply ih
    apply credit_user_chips_chipInv
    exact h

/-- Storage.apply_curation_rewards preserves the invariant. -/
theorem apply_curation_rewards_chipInv (s : Storage) (cid : Nat) (h : chipInv s) :
    chipInv (Storage.apply_curation_rewards s cid).2 := by
  unfold Storage.apply_curation_rewards
  by_cases h1 : Storage.has_curation_rewards s cid = true
  · rw [if_pos h1]
    exact h
  · rw [if_neg h1]
    dsimp only
    by_cases h2 : (Storage.compute_curation_reward_rows s cid).isEmpty = true
    · rw [if_pos h2]
      exact h
    · rw [if_neg h2]
      exact curation_fold_chipInv cid _ s h

/-- Folding the prediction-reward credit transactions preserves the invariant. -/
theorem credit_mapfold_chipInv (cid : Nat) :
    ∀ (l : List (Nat × Int)) (st : Storage), chipInv st →
      chipInv ((l.map (fun ur st =>
        Storage.credit_user_chips st ur.1 ur.2 "prediction_reward" (some cid))).foldl
        (fun st f => f st) st) := by
  intro l
  induction l with
  | nil =>
    intro st h
    exact h
  | cons a l ih =>
    intro st h
    rw [List.map_cons, List.foldl_cons]
    exact ih _ (credit_user_chips_chipInv st a.1 a.2 "prediction_reward" (some cid) h)

/-- save_cycle_results touches only cycle_results and cycles, so the invariant
carries over unchanged. -/
theorem save_cycle_results_chipInv (s : Storage) (cid : Nat) (w : List Nat) (now : Int)
    (h : chipInv s) : chipInv (Storage.save_cycle_results s cid w now) := h

/-- settle_cycle preserves the invariant: the save transaction leaves balances
and ledger alone, and every reward flows through credit_user_chips. -/
theorem settle_cycle_chipInv (s : Storage) (cid : Nat) (urls : List String) (now : Int)
    (h : chipInv s) : chipInv (MarketService.settle_cycle s cid urls now).2 := by
  show chipInv ((settleTxns s cid urls now).foldl (fun st f => f st) s)
  unfold settleTxns
  dsimp only
  rw [List.foldl_cons]
  exact credit_mapfold_chipInv cid _ _
    (save_cycle_results_chipInv s cid (winnerIdsOf s cid urls) now h)

/-- Every chip-mutating operation preserves the invariant. -/
theorem applyChipOp_chipInv (s : Storage) (op : ChipOp) (h : chipInv s) :
    chipInv (applyChipOp s op) := by
  cases op with
  | createUser n e a d =>
    show chipInv (match Storage.create_user s n e a d with
      | none => s
      | some us => us.2)
    unfold Storage.create_user
    by_cases hdup : s.users.any (fun u => u.email == e) = true
    · rw [if_pos hdup]
      exact h
    · rw [if_neg hdup]
      exact insert_user_chipInv s n e a d h
  | creditChips u δ et cid => exact credit_user_chips_chipInv s u δ et cid h
  | dailyFaucet d => exact apply_daily_faucet_chipInv s d h
  | curationRewards cid => exact apply_curation_rewards_chipInv s cid h
  | settle cid urls now => exact settle_cycle_chipInv s cid urls now h

/-- The empty initial database satisfies the invariant. -/
theorem initStorage_chipInv : chipInv initStorage := by
  refine ⟨?_, ?_, ?_⟩ <;> intro x hx <;> simp [initStorage] at hx

/-- The invariant is preserved along any operation sequence. -/
theorem applyChipOps_chipInv : ∀ (ops : List ChipOp) (s : Storage),
    chipInv s → chipInv (applyChipOps s ops) := by
  intro ops
  induction ops with
  | nil =>
    intro s h
    exact h
  | cons op ops ih =>
    intro s h
    exact ih _ (applyChipOp_chipInv s op h)

end TCMarket

namespace TCMarket

/-- A concrete operation sequence exercising user creation, a duplicate-email
rollback, prediction-reward credits (including an unknown-user rollback), and the
daily faucet. -/
def c8Ops : List ChipOp :=
  [ .createUser "Alice" "alice@example.com" "HUMAN" 0,
    .createUser "Bob" "bob@example.com" "HUMAN" 1,
    .createUser "Mallory" "alice@example.com" "HUMAN" 1,
    .creditChips 0 25 "prediction_reward" none,
    .creditChips 7 5 "prediction_reward" none,
    .creditChips 1 0 "prediction_reward" none,
    .dailyFaucet 3 ]

/-- Placeholder user record for total list indexing in the witness. -/
def c8Dummy : UserRec :=
  { id := 0, display_name := "", email := "", account_type := "",
    current_chips := 0, last_daily_credit_date := 0 }

/-- C8: after every sequence of chip-mutating operations (user creation,
prediction-reward credits, curation rewards, daily faucet, settlement), every
user's current_chips equals the sum of that user's chip_ledger deltas — every
balance mutation writes its paired ledger entry. -/
theorem claim_C8 (ops : List ChipOp) :
    ∀ u ∈ (applyChipOps initStorage ops).users,
      u.current_chips =
        (((applyChipOps initStorage ops).chip_ledger.filter
            (fun e => e.user_id == u.id)).map (fun e => e.chips_delta)).sum :=
  (applyChipOps_chipInv ops initStorage initStorage_chipInv).1

/-- Witness: the invariant instantiated on the concrete c8Ops run at its first
user. -/
theorem claim_C8_witness :
    (applyChipOps initStorage c8Ops).users.getD 0 c8Dummy ∈
        (applyChipOps initStorage c8Ops).users ∧
      ((applyChipOps initStorage c8Ops).users.getD 0 c8Dummy).current_chips =
        (((applyChipOps initStorage c8Ops).chip_ledger.filter
            (fun e => e.user_id ==
              ((applyChipOps initStorage c8Ops).users.getD 0 c8Dummy).id)).map
          (fun e => e.chips_delta)).sum :=
  ⟨by decide, claim_C8 c8Ops _ (by decide)⟩

end TCMarket
